import Mathlib

/-!
Verification development for the slotted-page storage engine of a minimal
relational database (Rust sources under `src/`).  The Rust code is shallowly
embedded: byte streams are `List Nat` (each element one byte), machine
integers become `Nat`/`Int` with explicit `% 2^w` at the places the code
casts, fallible operations return `Except DBError`, and file I/O on a table
file is modelled as a list of decoded pages (OS-level read/write of the
backing file is assumed to succeed; on error paths the Rust code can leave
partial writes behind, which is unobservable here because an `Except.error`
result discards the mutated state, matching every caller-visible behaviour).
-/

/-- PAGE_SIZE from src/page.rs. -/
def PAGE_SIZE : Nat := 8192

/-- PAGE_HEADER_SIZE from src/page.rs: id u32 + free_space_end u16 + dead_space u16. -/
def PAGE_HEADER_SIZE : Nat := 4 + 2 * 2

/-- PAGE_DATA_SIZE from src/page.rs. -/
def PAGE_DATA_SIZE : Nat := PAGE_SIZE - PAGE_HEADER_SIZE

/-- A byte stream: list of bytes (each a `Nat`, meaningful values below 256). -/
abbrev Bytes := List Nat

/-- Big-endian interpretation of a byte list (BinaryReader's `from_be_bytes`). -/
def beNat (bs : Bytes) : Nat := bs.foldl (fun a b => 256 * a + b) 0

/-- Big-endian encoding of `n` into exactly `k` bytes (`to_be_bytes`);
truncates to `n % 2^(8*k)` exactly as a Rust integer cast would. -/
def natToBE : Nat → Nat → Bytes
  | 0, _ => []
  | k + 1, n => natToBE k (n / 256) ++ [n % 256]

/-- BinaryReader::read_exact of `n` bytes from a stream; `none` is an I/O error (EOF). -/
def readN : Nat → Bytes → Option (Bytes × Bytes)
  | 0, l => some ([], l)
  | _ + 1, [] => none
  | n + 1, b :: l => (readN n l).map (fun p => (b :: p.1, p.2))

/-- BinaryReader::read_u8. -/
def readU8 (l : Bytes) : Option (Nat × Bytes) :=
  match l with
  | [] => none
  | b :: r => some (b, r)

/-- BinaryReader::read_u16 (big-endian). -/
def readU16 (l : Bytes) : Option (Nat × Bytes) :=
  (readN 2 l).map (fun p => (beNat p.1, p.2))

/-- BinaryReader::read_u32 (big-endian). -/
def readU32 (l : Bytes) : Option (Nat × Bytes) :=
  (readN 4 l).map (fun p => (beNat p.1, p.2))

/-- Two's-complement reading of a 32-bit pattern, as `i32::from_be_bytes`. -/
def toI32 (n : Nat) : Int :=
  if n < 2 ^ 31 then (n : Int) else (n : Int) - 2 ^ 32

/-- BinaryReader::read_i32 (big-endian, two's complement). -/
def readI32 (l : Bytes) : Option (Int × Bytes) :=
  (readN 4 l).map (fun p => (toI32 (beNat p.1), p.2))

/-- BinaryReader::read_bool: one byte, nonzero means true. -/
def readBool (l : Bytes) : Option (Bool × Bytes) :=
  (readU8 l).map (fun p => (p.1 != 0, p.2))

/-- BinaryWriter::write_u16. -/
def writeU16 (n : Nat) : Bytes := natToBE 2 n

/-- BinaryWriter::write_u32. -/
def writeU32 (n : Nat) : Bytes := natToBE 4 n

/-- BinaryWriter::write_i32: big-endian bytes of the two's-complement pattern. -/
def writeI32 (i : Int) : Bytes := natToBE 4 (i % 2 ^ 32).toNat

/-- Is `b` a UTF-8 continuation byte (10xxxxxx)? -/
def utf8Cont (b : Nat) : Bool := 128 ≤ b && b < 192

/-- UTF-8 validity of a byte sequence, following the checks performed by
Rust's `String::from_utf8` (used by BinaryReader::read_string): ASCII,
2/3/4-byte sequences with the E0/ED/F0/F4 restrictions that exclude
overlong encodings, surrogates and values above U+10FFFF. -/
def validUtf8 : Bytes → Bool
  | [] => true
  | b :: r =>
    if b < 128 then validUtf8 r
    else if 194 ≤ b && b ≤ 223 then
      match r with
      | c1 :: r2 => utf8Cont c1 && validUtf8 r2
      | [] => false
    else if b = 224 then
      match r with
      | c1 :: c2 :: r2 => (160 ≤ c1 && c1 < 192) && utf8Cont c2 && validUtf8 r2
      | _ => false
    else if (225 ≤ b && b ≤ 236) || b = 238 || b = 239 then
      match r with
      | c1 :: c2 :: r2 => utf8Cont c1 && utf8Cont c2 && validUtf8 r2
      | _ => false
    else if b = 237 then
      match r with
      | c1 :: c2 :: r2 => (128 ≤ c1 && c1 < 160) && utf8Cont c2 && validUtf8 r2
      | _ => false
    else if b = 240 then
      match r with
      | c1 :: c2 :: c3 :: r2 =>
        (144 ≤ c1 && c1 < 192) && utf8Cont c2 && utf8Cont c3 && validUtf8 r2
      | _ => false
    else if 241 ≤ b && b ≤ 243 then
      match r with
      | c1 :: c2 :: c3 :: r2 =>
        utf8Cont c1 && utf8Cont c2 && utf8Cont c3 && validUtf8 r2
      | _ => false
    else if b = 244 then
      match r with
      | c1 :: c2 :: c3 :: r2 =>
        (128 ≤ c1 && c1 < 144) && utf8Cont c2 && utf8Cont c3 && validUtf8 r2
      | _ => false
    else false

/-- BinaryWriter::write_string: u32 big-endian length then the bytes. -/
def writeStringBytes (s : Bytes) : Bytes := writeU32 s.length ++ s

/-- BinaryReader::read_string: u32 length, that many bytes, UTF-8 check
(`none` both on EOF and on the InvalidData error for non-UTF-8 bytes). -/
def readStringBytes (l : Bytes) : Option (Bytes × Bytes) :=
  match readU32 l with
  | none => none
  | some (len, r) =>
    match readN len r with
    | none => none
    | some (s, r2) => if validUtf8 s then some (s, r2) else none

/-- DBType from src/values.rs. -/
inductive DBType where
  | bool
  | int
  | double
  | string
deriving DecidableEq

/-- The four error kinds of src/errors.rs (human-readable messages elided). -/
inductive DBError where
  | parse
  | execution
  | integrity
  | io
deriving DecidableEq

/-- DBValue from src/values.rs.  `Double` carries the IEEE-754 binary64 bit
pattern (a `Nat` below `2^64`); `String` carries the UTF-8 bytes of the Rust
string (`str::len` is its byte length). -/
inductive DBValue where
  | Bool (b : Bool)
  | Int (i : Int)
  | Double (bits : Nat)
  | String (s : Bytes)
deriving DecidableEq

/-- DBValue::dtype. -/
def DBValue.dtype : DBValue → DBType
  | .Bool _ => .bool
  | .Int _ => .int
  | .Double _ => .double
  | .String _ => .string

/-- DBValue::len: serialized size in bytes. -/
def DBValue.len : DBValue → Nat
  | .Bool _ => 1
  | .Int _ => 4
  | .Double _ => 8
  | .String s => 4 + s.length

/-- DBValue::write: per-variant big-endian encoding (value writes are total). -/
def valueBytes : DBValue → Bytes
  | .Bool b => [if b then 1 else 0]
  | .Int i => writeI32 i
  | .Double bits => natToBE 8 bits
  | .String s => writeStringBytes s

/-- DBValue::from_reader: decode one value of declared type `dt`.
`none` is an I/O error (EOF or invalid UTF-8). -/
def readValue (dt : DBType) (l : Bytes) : Option (DBValue × Bytes) :=
  match dt with
  | .bool => (readBool l).map (fun p => (DBValue.Bool p.1, p.2))
  | .int => (readI32 l).map (fun p => (DBValue.Int p.1, p.2))
  | .double => (readN 8 l).map (fun p => (DBValue.Double (beNat p.1), p.2))
  | .string => (readStringBytes l).map (fun p => (DBValue.String p.1, p.2))

/-- Well-formedness of a model value: the payload invariants that the Rust
types `i32`, `f64` (bit pattern), `String` (valid UTF-8, u8 bytes, length
fits the u32 prefix) guarantee by construction. -/
def wfValue : DBValue → Bool
  | .Bool _ => true
  | .Int i => decide (-(2 ^ 31) ≤ i) && decide (i < 2 ^ 31)
  | .Double bits => decide (bits < 2 ^ 64)
  | .String s => decide (s.length < 2 ^ 32) && s.all (fun b => b < 256) && validUtf8 s

/-- ColumnDef from src/table.rs (name kept for completeness; unused by storage). -/
structure ColumnDef where
  name : String
  dtype : DBType
deriving DecidableEq

/-- Table (schema) from src/table.rs. -/
structure Table where
  id : Nat
  name : String
  columns : List ColumnDef
deriving DecidableEq

/-- Tuple from src/tuple.rs. -/
structure Tuple where
  values : List DBValue
deriving DecidableEq

/-- Tuple::size: sum of value sizes. -/
def Tuple.size (t : Tuple) : Nat := (t.values.map DBValue.len).sum

/-- Concatenated per-value encoding of a tuple in column order. -/
def tupleBytes (t : Tuple) : Bytes := t.values.flatMap valueBytes

/-- Well-formedness of every value of a tuple. -/
def wfTuple (t : Tuple) : Bool := t.values.all wfValue

/-- Does the tuple conform to the schema (arity and per-column value types)?
This is exactly the check sequence of Tuple::write. -/
def Tuple.conforms (tbl : Table) (t : Tuple) : Bool :=
  t.values.length == tbl.columns.length &&
    (List.zip t.values tbl.columns).all (fun p => p.1.dtype == p.2.dtype)

/-- Loop body of Tuple::write: check each value's type against its column,
emitting the value bytes in order; execution error on any mismatch. -/
def writeVals : List DBValue → List ColumnDef → Except DBError Bytes
  | [], [] => .ok []
  | v :: vs, c :: cs =>
    if v.dtype = c.dtype then (writeVals vs cs).map (fun bs => valueBytes v ++ bs)
    else .error .execution
  | _, _ => .error .execution

/-- Tuple::write from src/tuple.rs: arity check, then per-column type check
and value encoding. -/
def Tuple.write (tbl : Table) (t : Tuple) : Except DBError Bytes :=
  if t.values.length ≠ tbl.columns.length then .error .execution
  else writeVals t.values tbl.columns

/-- Loop body of Tuple::read: one value per column, in order. -/
def readVals : List ColumnDef → Bytes → Except DBError (List DBValue × Bytes)
  | [], l => .ok ([], l)
  | c :: cs, l =>
    match readValue c.dtype l with
    | none => .error .io
    | some (v, l2) => (readVals cs l2).map (fun p => (v :: p.1, p.2))

/-- Tuple::read from src/tuple.rs; also returns the unconsumed rest of the
stream so that "consumes exactly `size` bytes" is statable. -/
def Tuple.read (tbl : Table) (l : Bytes) : Except DBError (Tuple × Bytes) :=
  (readVals tbl.columns l).map (fun p => (⟨p.1⟩, p.2))

/-- Exponent field of an IEEE-754 binary64 bit pattern. -/
def f64Exp (b : Nat) : Nat := b / 2 ^ 52 % 2 ^ 11

/-- Mantissa field of an IEEE-754 binary64 bit pattern. -/
def f64Mantissa (b : Nat) : Nat := b % 2 ^ 52

/-- Is the bit pattern a NaN (all-ones exponent, nonzero mantissa)? -/
def f64IsNan (b : Nat) : Bool := f64Exp b == 2047 && f64Mantissa b != 0

/-- Sign bit of a binary64 bit pattern (bit 63). -/
def f64Sign (b : Nat) : Nat := b / 2 ^ 63 % 2

/-- Magnitude bits (exponent and mantissa) of a binary64 bit pattern.  For
non-NaN values of equal sign these compare exactly like the absolute values
of the encoded numbers (including subnormals and infinities). -/
def f64Mag (b : Nat) : Nat := b % 2 ^ 63

/-- IEEE-754 comparison of two binary64 bit patterns, the semantics of
`f64::partial_cmp`: NaN is incomparable, +0.0 equals -0.0, otherwise
sign/magnitude ordering. -/
def f64Cmp (a b : Nat) : Option Ordering :=
  if f64IsNan a || f64IsNan b then none
  else if f64Mag a = 0 && f64Mag b = 0 then some .eq
  else if f64Sign a = 0 && f64Sign b = 0 then some (compare (f64Mag a) (f64Mag b))
  else if f64Sign a = 1 && f64Sign b = 1 then some (compare (f64Mag b) (f64Mag a))
  else if f64Sign a = 0 then some .gt
  else some .lt

/-- IEEE-754 equality of two binary64 bit patterns (`f64 == f64`): false if
either is NaN, true for +0.0 vs -0.0, bit equality otherwise (non-NaN
binary64 values have unique representations apart from the two zeros). -/
def f64Eq (a b : Nat) : Bool :=
  !f64IsNan a && !f64IsNan b && (a == b || (f64Mag a == 0 && f64Mag b == 0))

/-- The derived `PartialEq for DBValue`: variant-wise, with `f64` equality
on doubles; different variants are never equal. -/
def dbvEq : DBValue → DBValue → Bool
  | .Bool a, .Bool b => a == b
  | .Int a, .Int b => a == b
  | .Double a, .Double b => f64Eq a b
  | .String a, .String b => a == b
  | _, _ => false

/-- `impl PartialOrd for DBValue` from src/values.rs: ordering only between
Int/Int and Double/Double, `None` (incomparable) otherwise. -/
def DBValue.partialCmp : DBValue → DBValue → Option Ordering
  | .Int a, .Int b => some (compare a b)
  | .Double a, .Double b => f64Cmp a b
  | _, _ => none

/-- WhereClause from src/sql.rs: one comparison over (column index, literal). -/
inductive WhereClause where
  | Eq (colIndex : Nat) (value : DBValue)
  | Neq (colIndex : Nat) (value : DBValue)
  | Lt (colIndex : Nat) (value : DBValue)
  | Lte (colIndex : Nat) (value : DBValue)
  | Gt (colIndex : Nat) (value : DBValue)
  | Gte (colIndex : Nat) (value : DBValue)

/-- Rust's `PartialOrd::lt`: partial_cmp is Some(Less). -/
def pcmpLt (a b : DBValue) : Bool := a.partialCmp b == some .lt

/-- Rust's `PartialOrd::le`: partial_cmp is Some(Less) or Some(Equal). -/
def pcmpLe (a b : DBValue) : Bool :=
  match a.partialCmp b with
  | some .lt => true
  | some .eq => true
  | _ => false

/-- Rust's `PartialOrd::gt`: partial_cmp is Some(Greater). -/
def pcmpGt (a b : DBValue) : Bool := a.partialCmp b == some .gt

/-- Rust's `PartialOrd::ge`: partial_cmp is Some(Greater) or Some(Equal). -/
def pcmpGe (a b : DBValue) : Bool :=
  match a.partialCmp b with
  | some .gt => true
  | some .eq => true
  | _ => false

/-- tuple_matches from src/operations.rs.  Rust indexes
`tuple.values[*col_index]` (panicking out of bounds); the model totalizes
with a `Bool false` default, which claims only use at in-bounds indices. -/
def tuple_matches (t : Tuple) (w : WhereClause) : Bool :=
  match w with
  | .Eq i v => dbvEq (t.values.getD i (.Bool false)) v
  | .Neq i v => !dbvEq (t.values.getD i (.Bool false)) v
  | .Lt i v => pcmpLt (t.values.getD i (.Bool false)) v
  | .Lte i v => pcmpLe (t.values.getD i (.Bool false)) v
  | .Gt i v => pcmpGt (t.values.getD i (.Bool false)) v
  | .Gte i v => pcmpGe (t.values.getD i (.Bool false)) v

/-- Are the two values like-typed numerics (Int32 with Int32 or Double with
Double)?  This is the domain on which §3 of the spec defines ordering. -/
def likeTypedNumeric : DBValue → DBValue → Bool
  | .Int _, .Int _ => true
  | .Double _, .Double _ => true
  | _, _ => false

/-- Outcome of `DBValue::from_str` (src/values.rs).  The numeric payloads
produced by Rust's `str::parse` are out of scope (decimal-to-binary64
conversion); the model captures which branch of the source fires, including
the panicking string slice. -/
inductive FromStrOutcome where
  | okBool
  | okInt
  | okDouble
  | okString (inner : List Char)
  | parseErr
  | panicked
deriving DecidableEq

/-- Is the character an ASCII digit? -/
def isAsciiDigit (c : Char) : Bool := '0' ≤ c && c ≤ '9'

/-- Numeric value of a digit string. -/
def digitsToNat (l : List Char) : Nat :=
  l.foldl (fun a c => 10 * a + (c.toNat - '0'.toNat)) 0

/-- Strip one optional leading sign, returning (negative?, rest). -/
def stripSign (l : List Char) : Bool × List Char :=
  match l with
  | '+' :: r => (false, r)
  | '-' :: r => (true, r)
  | _ => (false, l)

/-- Acceptance of Rust's `str::parse::<bool>`: exactly "true" or "false". -/
def acceptBool (l : List Char) : Bool :=
  l == "true".data || l == "false".data

/-- Acceptance of Rust's `str::parse::<i32>`: optional sign, one or more
ASCII digits, value within the i32 range. -/
def acceptI32 (l : List Char) : Bool :=
  let p := stripSign l
  !p.2.isEmpty && p.2.all isAsciiDigit &&
    (if p.1 then digitsToNat p.2 ≤ 2 ^ 31 else digitsToNat p.2 < 2 ^ 31)

/-- Case-insensitive comparison with an ASCII keyword. -/
def ciEq (l : List Char) (kw : List Char) : Bool :=
  l.map Char.toLower == kw

/-- Acceptance of the exponent-or-end tail of Rust's f64 grammar. -/
def acceptExpTail (l : List Char) : Bool :=
  match l with
  | [] => true
  | e :: r =>
    (e == 'e' || e == 'E') &&
      (let p := stripSign r
       !p.2.isEmpty && p.2.all isAsciiDigit &&
         (p.2.span isAsciiDigit).2.isEmpty)

/-- Acceptance of the number part of Rust's f64 grammar:
`Digits '.'? Digits? Exp?` or `'.' Digits Exp?`. -/
def acceptF64Number (l : List Char) : Bool :=
  let p := l.span isAsciiDigit
  if p.1.isEmpty then
    match p.2 with
    | '.' :: r2 =>
      let q := r2.span isAsciiDigit
      !q.1.isEmpty && acceptExpTail q.2
    | _ => false
  else
    match p.2 with
    | '.' :: r2 => acceptExpTail (r2.span isAsciiDigit).2
    | r => acceptExpTail r

/-- Acceptance of Rust's `str::parse::<f64>`: optional sign, then
(case-insensitively) "inf", "infinity", "nan", or a decimal number. -/
def acceptF64 (l : List Char) : Bool :=
  let p := stripSign l
  ciEq p.2 "inf".data || ciEq p.2 "infinity".data || ciEq p.2 "nan".data ||
    acceptF64Number p.2

/-- The branch structure of `impl FromStr for DBValue` (src/values.rs):
bool, then i32, then f64, then the single-quoted string branch whose slice
`s[1..s.len() - 1]` panics when the input is the single character `'`;
otherwise a parse error.  The input is the character list of the literal
(for the ASCII inputs at issue, chars coincide with the bytes Rust slices). -/
def fromStrOutcome (l : List Char) : FromStrOutcome :=
  if acceptBool l then .okBool
  else if acceptI32 l then .okInt
  else if acceptF64 l then .okDouble
  else if l.head? == some '\'' && l.getLast? == some '\'' then
    if 2 ≤ l.length then .okString (l.drop 1 |>.dropLast)
    else .panicked
  else .parseErr

/-- Loop of `writeAt`: `acc` holds the already-passed prefix reversed, so
evaluation is tail-recursive (iterative); recursion is structural on the
data list. -/
def writeAtAux : Bytes → Bytes → Nat → Bytes → Except DBError Bytes
  | acc, d, 0, [] => .ok (List.reverseAux acc d)
  | _, [], 0, _ :: _ => .error .io
  | _, [], _ + 1, _ => .error .io
  | acc, x :: d2, n + 1, bs => writeAtAux (x :: acc) d2 n bs
  | acc, _ :: d2, 0, b :: bs2 => writeAtAux (b :: acc) d2 0 bs2

/-- Write `bs` into `data` starting at byte offset `off`, the effect of
`write_all` on a cursor positioned at `data[off..]` (the data region is the
fixed-size array `[u8; PAGE_DATA_SIZE]`); error (WriteZero) when the bytes
do not fit the remaining region. -/
def writeAt (data : Bytes) (off : Nat) (bs : Bytes) : Except DBError Bytes :=
  writeAtAux [] data off bs

/-- TupleHeader::from_reader on a cursor at `data[off..]`: alive byte
(nonzero is true) then u16 length; `none` is the EOF I/O error. -/
def readHeader (data : Bytes) (off : Nat) : Option (Bool × Nat) :=
  match data.drop off with
  | b :: b1 :: b2 :: _ => some (b != 0, 256 * b1 + b2)
  | _ => none

/-- TupleHeader serialization: alive byte then u16 length. -/
def headerBytes (alive : Bool) (len : Nat) : Bytes :=
  (if alive then 1 else 0) :: writeU16 len

/-- Page from src/page.rs.  The `table` reference is passed to the
operations as an explicit argument. -/
structure Page where
  id : Nat
  free_space_end : Nat
  dead_space : Nat
  data : Bytes
deriving DecidableEq

/-- Page::new: empty page with zeroed data region. -/
def Page.new (id : Nat) : Page :=
  ⟨id, 0, 0, List.replicate PAGE_DATA_SIZE 0⟩

/-- Page::free_space (usize subtraction; under the page invariant
`free_space_end ≤ PAGE_DATA_SIZE` the truncated `Nat` subtraction agrees
with Rust). -/
def Page.free_space (p : Page) : Nat := PAGE_DATA_SIZE - p.free_space_end

/-- Page::can_fit_tuple. -/
def Page.can_fit_tuple (p : Page) (t : Tuple) : Bool :=
  decide (3 + t.size ≤ p.free_space)

/-- Page::insert_tuple from src/page.rs: integrity error when the tuple
does not fit, otherwise write header `(alive, len = tuple.size())` at
`free_space_end`, write the payload after it, return the slot offset (the
pre-advance `free_space_end`, cast to u16) and advance `free_space_end`. -/
def Page.insert_tuple (tbl : Table) (p : Page) (t : Tuple) :
    Except DBError (Nat × Page) :=
  if !p.can_fit_tuple t then .error .integrity
  else
    match writeAt p.data p.free_space_end (headerBytes true t.size) with
    | .error e => .error e
    | .ok data1 =>
      match Tuple.write tbl t with
      | .error e => .error e
      | .ok payload =>
        match writeAt data1 (p.free_space_end + 3) payload with
        | .error e => .error e
        | .ok data2 =>
          .ok (p.free_space_end % 2 ^ 16,
            ⟨p.id, p.free_space_end + 3 + t.size, p.dead_space, data2⟩)

/-- Page::mark_tuple_dead from src/page.rs: bounds check, read the header,
rewrite it with `alive = false`, add `3 + len` to `dead_space` (no check
that the slot was alive, and no check that the offset is a slot start). -/
def Page.mark_tuple_dead (p : Page) (off : Nat) : Except DBError Page :=
  if PAGE_DATA_SIZE ≤ off then .error .integrity
  else
    match readHeader p.data off with
    | none => .error .io
    | some (_, len) =>
      match writeAt p.data off (headerBytes false len) with
      | .error e => .error e
      | .ok data1 => .ok ⟨p.id, p.free_space_end, p.dead_space + 3 + len, data1⟩

/-- Page::overwrite_tuple from src/page.rs: bounds check, header read,
integrity error on a dead slot, `Ok(false)` without mutation when the new
tuple exceeds the slot's recorded length, otherwise rewrite the payload in
place (header untouched) and return `Ok(true)`. -/
def Page.overwrite_tuple (tbl : Table) (p : Page) (off : Nat) (t : Tuple) :
    Except DBError (Bool × Page) :=
  if PAGE_DATA_SIZE ≤ off then .error .integrity
  else
    match readHeader p.data off with
    | none => .error .io
    | some (alive, len) =>
      if !alive then .error .integrity
      else if len < t.size then .ok (false, p)
      else
        match Tuple.write tbl t with
        | .error e => .error e
        | .ok payload =>
          match writeAt p.data (off + 3) payload with
          | .error e => .error e
          | .ok data1 => .ok (true, ⟨p.id, p.free_space_end, p.dead_space, data1⟩)

/-- PageIterator::next collected into a list: walk offsets from `off`,
skipping dead slots, yielding `(slot_offset, Tuple::read result)` for alive
slots, stopping at `free_space_end`.  The outer `none` models the panic of
the `.expect` on a failed header read (unreachable on well-formed pages).
`fuel` is only a structural termination device; every offset step consumes
at least 3 bytes, so any fuel above `free_space_end` is enough and is never
exhausted (fuel exhaustion also answers `none`). -/
def Page.scanFrom (tbl : Table) (p : Page) :
    Nat → Nat → Option (List (Nat × Except DBError Tuple))
  | 0, _ => none
  | fuel + 1, off =>
    if off < p.free_space_end then
      match readHeader p.data off with
      | none => none
      | some (alive, len) =>
        if alive then
          (Page.scanFrom tbl p fuel (off + 3 + len)).map
            (fun rest =>
              (off, (Tuple.read tbl (p.data.drop (off + 3))).map Prod.fst) :: rest)
        else Page.scanFrom tbl p fuel (off + 3 + len)
    else some []

/-- Full page scan from offset 0 (`Page::iter`). -/
def Page.scan (tbl : Table) (p : Page) : Option (List (Nat × Except DBError Tuple)) :=
  Page.scanFrom tbl p (p.free_space_end + 1) 0

/-- A page decoded from all-zero file bytes (the content of a gap created
by seeking past the end of the file). -/
def zeroPage : Page := ⟨0, 0, 0, List.replicate PAGE_DATA_SIZE 0⟩

/-- PageTable from src/page_table.rs.  The backing file is modelled as the
list of its decoded 8192-byte pages; `page_count` is the stored count
(equal to `pages.length` in every state the code constructs). -/
structure PageTable where
  pages : List Page
  page_count : Nat
deriving DecidableEq

/-- PageTable::get_page: integrity error when `page_id ≥ page_count`,
otherwise read the page at that index (an out-of-range read of a too-short
file would be the I/O error case). -/
def PageTable.get_page (pt : PageTable) (page_id : Nat) : Except DBError Page :=
  if pt.page_count ≤ page_id then .error .integrity
  else
    match pt.pages[page_id]? with
    | some p => .ok p
    | none => .error .io

/-- PageTable::save_page: write the 8192 bytes of `page` at index
`page.id` (zero-filled gap when seeking past the end), then bump
`page_count` to `page.id + 1` when `page.id ≥ page_count`. -/
def PageTable.save_page (pt : PageTable) (p : Page) : PageTable :=
  let pages :=
    if p.id < pt.pages.length then pt.pages.set p.id p
    else pt.pages ++ List.replicate (p.id - pt.pages.length) zeroPage ++ [p]
  ⟨pages, if pt.page_count ≤ p.id then p.id + 1 else pt.page_count⟩

/-- PageTable::insert_tuple from src/page_table.rs: load the last page
(`page_count - 1`); if the tuple does not fit, switch to a fresh empty page
with `id = page_count`; insert; save; return `(page.id, offset)`. -/
def PageTable.insert_tuple (tbl : Table) (pt : PageTable) (t : Tuple) :
    Except DBError ((Nat × Nat) × PageTable) :=
  match pt.get_page (pt.page_count - 1) with
  | .error e => .error e
  | .ok page0 =>
    let page1 := if !page0.can_fit_tuple t then Page.new pt.page_count else page0
    match Page.insert_tuple tbl page1 t with
    | .error e => .error e
    | .ok (off, page2) => .ok ((page2.id, off), pt.save_page page2)

/-- PageTable::overwrite_tuple from src/page_table.rs: load the page, try
the in-place overwrite; on `false`, mark the slot dead and either insert
into the same page when it fits or recurse into `insert_tuple` (on the
not-yet-saved table state); in every path the (possibly tombstoned) page is
saved last. -/
def PageTable.overwrite_tuple (tbl : Table) (pt : PageTable) (page_id off : Nat)
    (t : Tuple) : Except DBError ((Nat × Nat) × PageTable) :=
  match pt.get_page page_id with
  | .error e => .error e
  | .ok page0 =>
    match Page.overwrite_tuple tbl page0 off t with
    | .error e => .error e
    | .ok (true, page1) => .ok ((page_id, off), pt.save_page page1)
    | .ok (false, page1) =>
      match Page.mark_tuple_dead page1 off with
      | .error e => .error e
      | .ok page2 =>
        if page2.can_fit_tuple t then
          match Page.insert_tuple tbl page2 t with
          | .error e => .error e
          | .ok (off2, page3) => .ok ((page_id, off2), pt.save_page page3)
        else
          match PageTable.insert_tuple tbl pt t with
          | .error e => .error e
          | .ok (res, pt2) => .ok (res, pt2.save_page page2)

/-- PageTable::delete_tuple: load the page, mark the slot dead, save. -/
def PageTable.delete_tuple (pt : PageTable) (page_id off : Nat) :
    Except DBError PageTable :=
  match pt.get_page page_id with
  | .error e => .error e
  | .ok page0 =>
    match Page.mark_tuple_dead page0 off with
    | .error e => .error e
    | .ok page1 => .ok (pt.save_page page1)

/-- Split a page scan at its first tuple-read error (TableIterator stops
yielding after returning an error). -/
def splitFirstErr : List (Nat × Except DBError Tuple) →
    List (Nat × Tuple) × Option DBError
  | [] => ([], none)
  | (off, .ok t) :: rest =>
    let p := splitFirstErr rest
    ((off, t) :: p.1, p.2)
  | (_, .error e) :: _ => ([], some e)

/-- The full item sequence produced by TableIterator (src/page_table.rs),
collected into a list, starting at page `pid`: pages in index order, each
page's alive slots in offset order, truncated just after the first error
(fail-fast); `none` models the header-read panic inside PageIterator.
`fuel` is a structural termination device; `tableScan` passes the page
count, which is exactly the number of steps needed from page 0. -/
def tableScanFrom (tbl : Table) (pt : PageTable) :
    Nat → Nat → Option (List (Except DBError (Nat × Nat × Tuple)))
  | 0, _ => some []
  | fuel + 1, pid =>
    if pid < pt.page_count then
      match pt.get_page pid with
      | .error e => some [.error e]
      | .ok p =>
        match Page.scan tbl p with
        | none => none
        | some items =>
          match splitFirstErr items with
          | (oks, some e) =>
            some ((oks.map (fun q => .ok (pid, q.1, q.2))) ++ [.error e])
          | (oks, none) =>
            (tableScanFrom tbl pt fuel (pid + 1)).map
              (fun rest => (oks.map (fun q => .ok (pid, q.1, q.2))) ++ rest)
    else some []

/-- Sequential scan of a whole table, the iterator contract consumed by the
executor. -/
def tableScan (tbl : Table) (pt : PageTable) :
    Option (List (Except DBError (Nat × Nat × Tuple))) :=
  tableScanFrom tbl pt pt.page_count 0

/-- TableIterator state (src/page_table.rs): the current page index, the
inner page iterator (loaded page plus its cursor offset), and the sticky
error flag. -/
structure TIterState where
  page_id : Nat
  cur : Option (Page × Nat)
  errored : Bool
deriving DecidableEq

/-- Loop of one PageIterator::next call (dead slots are skipped by the
recursion exactly as the source recurses into `self.next()`); `fuel` is a
structural termination device, never exhausted for fuel above
`free_space_end` (exhaustion answers the panic marker `none`). -/
def pageIterAux (tbl : Table) (p : Page) :
    Nat → Nat → Option (Option (Nat × Except DBError Tuple) × Nat)
  | 0, _ => none
  | fuel + 1, off =>
    if off < p.free_space_end then
      match readHeader p.data off with
      | none => none
      | some (alive, len) =>
        if alive then
          some (some (off, (Tuple.read tbl (p.data.drop (off + 3))).map Prod.fst),
            off + 3 + len)
        else pageIterAux tbl p fuel (off + 3 + len)
    else some (none, off)

/-- One call of PageIterator::next, as a step function on the iterator's
offset: `some (some item, off2)` yields `item` and advances to `off2`;
`some (none, off)` is exhaustion; `none` models the `.expect` panic on a
failed header read. -/
def pageIterNext (tbl : Table) (p : Page) (off : Nat) :
    Option (Option (Nat × Except DBError Tuple) × Nat) :=
  pageIterAux tbl p (p.free_space_end + 1) off

/-- The `loop` of TableIterator::next: pull from the inner page iterator;
on exhaustion advance `page_id` (only when an iterator was loaded), stop
past the last page, otherwise load the next page and continue.  Every error
return carries `errored = true`.  `fuel` is a structural termination
device; the loop iterates at most once per remaining page plus two, and
`tableIterNext` passes `page_count + 2`, so exhaustion (the `none` marker)
is unreachable. -/
def tableIterLoop (tbl : Table) (pt : PageTable) :
    Nat → Nat → Option (Page × Nat) →
      Option (Option (Except DBError (Nat × Nat × Tuple)) × TIterState)
  | 0, _, _ => none
  | fuel + 1, pid, cur =>
    match cur with
    | some (p, off) =>
      match pageIterNext tbl p off with
      | none => none
      | some (some (o, .ok t), off2) =>
        some (some (.ok (pid, o, t)), ⟨pid, some (p, off2), false⟩)
      | some (some (_, .error e), off2) =>
        some (some (.error e), ⟨pid, some (p, off2), true⟩)
      | some (none, off2) =>
        if pid + 1 < pt.page_count then
          match pt.get_page (pid + 1) with
          | .ok p2 => tableIterLoop tbl pt fuel (pid + 1) (some (p2, 0))
          | .error e => some (some (.error e), ⟨pid + 1, some (p, off2), true⟩)
        else some (none, ⟨pid + 1, some (p, off2), false⟩)
    | none =>
      if pid < pt.page_count then
        match pt.get_page pid with
        | .ok p2 => tableIterLoop tbl pt fuel pid (some (p2, 0))
        | .error e => some (some (.error e), ⟨pid, none, true⟩)
      else some (none, ⟨pid, none, false⟩)

/-- TableIterator::next, as a step function on the iterator state: yields
the produced item (if any) and the successor state; short-circuits to
`none` items once `errored` is set. -/
def tableIterNext (tbl : Table) (pt : PageTable) (s : TIterState) :
    Option (Option (Except DBError (Nat × Nat × Tuple)) × TIterState) :=
  if s.errored then some (none, s)
  else tableIterLoop tbl pt (pt.page_count + 2) s.page_id s.cur

/-- The state-transition part of a `next()` call (identity on a panic). -/
def tiStep (tbl : Table) (pt : PageTable) (s : TIterState) : TIterState :=
  match tableIterNext tbl pt s with
  | some (_, s2) => s2
  | none => s

/-- Abstract view of one slot of a page: liveness flag, the tuple the slot
holds, and the residue bytes left behind by shrinking overwrites (the
header's recorded length is the slot's capacity `tuple.size + pad.length`,
not the current payload size). -/
structure Slot where
  alive : Bool
  tuple : Tuple
  pad : Bytes
deriving DecidableEq

/-- Capacity recorded in the slot's header. -/
def slotLen (s : Slot) : Nat := s.tuple.size + s.pad.length

/-- Total bytes of the slot including its 3-byte header. -/
def slotSize (s : Slot) : Nat := 3 + slotLen s

/-- Byte image of a slot: header, tuple encoding, residue. -/
def slotBytes (s : Slot) : Bytes :=
  headerBytes s.alive (slotLen s) ++ tupleBytes s.tuple ++ s.pad

/-- Byte image of a slot sequence. -/
def slotsBytes (l : List Slot) : Bytes := l.flatMap slotBytes

/-- Total byte size of a slot sequence. -/
def sumSizes (l : List Slot) : Nat := (l.map slotSize).sum

/-- Total byte size of the dead (tombstoned) slots. -/
def deadSum (l : List Slot) : Nat :=
  ((l.filter (fun s => !s.alive)).map slotSize).sum

/-- Starting offset of the j-th slot in the data region. -/
def offsetOf (l : List Slot) (j : Nat) : Nat := sumSizes (l.take j)

/-- Tombstone a slot. -/
def killSlot (s : Slot) : Slot := ⟨false, s.tuple, s.pad⟩

/-- The slot after an in-place overwrite with `t`: same capacity, new
tuple, residue = old payload bytes past the new tuple's size. -/
def overwriteSlot (s : Slot) (t : Tuple) : Slot :=
  ⟨true, t, (tupleBytes s.tuple ++ s.pad).drop t.size⟩

/-- Replace the j-th element of a slot list by `f` of it. -/
def modifySlot (f : Slot → Slot) : List Slot → Nat → List Slot
  | [], _ => []
  | s :: r, 0 => f s :: r
  | s :: r, j + 1 => s :: modifySlot f r j

/-- A tuple the executor would hand to the storage layer: conforming to the
schema and with well-formed payloads. -/
def wfT (tbl : Table) (t : Tuple) : Bool := Tuple.conforms tbl t && wfTuple t

/-- Slot well-formedness: its tuple is executor-handed. -/
def wfSlot (tbl : Table) (s : Slot) : Bool := wfT tbl s.tuple

/-- The (offset, tuple) pairs of the alive slots, offsets starting at
`base`, in slot order. -/
def alivePairs (base : Nat) : List Slot → List (Nat × Tuple)
  | [] => []
  | s :: rest =>
    if s.alive then (base, s.tuple) :: alivePairs (base + slotSize s) rest
    else alivePairs (base + slotSize s) rest

/-- Number of alive slots. -/
def aliveCount (l : List Slot) : Nat := (l.filter (fun s => s.alive)).length

/-- The page `p` stores exactly the slot sequence `slots`: the data region
is their byte images laid out consecutively from offset 0 (bytes past
`free_space_end` are unconstrained free space), `free_space_end` is their
total size, and `dead_space` is the total size of the tombstoned ones. -/
structure Represents (tbl : Table) (p : Page) (slots : List Slot) : Prop where
  fse : p.free_space_end = sumSizes slots
  bound : sumSizes slots ≤ PAGE_DATA_SIZE
  dead : p.dead_space = deadSum slots
  dlen : p.data.length = PAGE_DATA_SIZE
  dataEq : p.data = slotsBytes slots ++ p.data.drop (sumSizes slots)
  wf : ∀ s ∈ slots, wfSlot tbl s = true

/-- Page histories: the page states reachable from `Page::new` by
successful inserts of executor-handed tuples, tombstonings of currently
alive slots, and successful in-place overwrites of alive slots.  The index
tracks every slot ever inserted; a `markDead` flips its slot's flag, so the
alive slots are exactly the inserted-and-not-marked-dead tuples, in
insertion order. -/
inductive PReach (tbl : Table) : Page → List Slot → Prop where
  | new (id : Nat) : PReach tbl (Page.new id) []
  | ins {p slots t off p2} : PReach tbl p slots → wfT tbl t = true →
      Page.insert_tuple tbl p t = .ok (off, p2) →
      PReach tbl p2 (slots ++ [⟨true, t, []⟩])
  | kill {p slots j p2} : PReach tbl p slots → (hj : j < slots.length) →
      (slots.get ⟨j, hj⟩).alive = true →
      Page.mark_tuple_dead p (offsetOf slots j) = .ok p2 →
      PReach tbl p2 (modifySlot killSlot slots j)
  | ow {p slots j t p2} : PReach tbl p slots → (hj : j < slots.length) →
      (slots.get ⟨j, hj⟩).alive = true → wfT tbl t = true →
      Page.overwrite_tuple tbl p (offsetOf slots j) t = .ok (true, p2) →
      PReach tbl p2 (modifySlot (fun s => overwriteSlot s t) slots j)

/-- Pointwise update of a slots-per-page map. -/
def updF (sf : Nat → List Slot) (i : Nat) (f : List Slot → List Slot) :
    Nat → List Slot :=
  fun k => if k = i then f (sf k) else sf k

/-- Oracle-level effect of PageTable::overwrite_tuple on the slot map:
in-place when the tuple fits the slot's capacity; otherwise tombstone and
append to the same page when it fits there; otherwise tombstone and place
on the last page, or on a fresh page past it, mirroring the recursion into
insert_tuple (which reads the not-yet-tombstoned on-disk state, whose free
space coincides with the tombstoned page's). -/
def owSlots (sf : Nat → List Slot) (lastIdx pid j : Nat) (t : Tuple) :
    Nat → List Slot :=
  let s := (sf pid).getD j ⟨false, ⟨[]⟩, []⟩
  if t.size ≤ slotLen s then
    updF sf pid (fun l => modifySlot (fun s0 => overwriteSlot s0 t) l j)
  else if 3 + t.size ≤ PAGE_DATA_SIZE - sumSizes (sf pid) then
    updF sf pid (fun l => modifySlot killSlot l j ++ [⟨true, t, []⟩])
  else if 3 + t.size ≤ PAGE_DATA_SIZE - sumSizes (sf lastIdx) then
    updF (updF sf pid (fun l => modifySlot killSlot l j)) lastIdx
      (fun l => l ++ [⟨true, t, []⟩])
  else
    updF (updF sf pid (fun l => modifySlot killSlot l j)) (lastIdx + 1)
      (fun l => l ++ [⟨true, t, []⟩])

/-- Table histories: page-table states reachable from `PageTable::init`
(one empty page) by successful inserts, deletes of alive slots, and
overwrites of alive slots, counting inserts and deletes.  Delete and
overwrite target a genuine alive slot, as the executor's two-phase
update/delete protocol guarantees (positions come from a completed scan). -/
inductive TReach (tbl : Table) :
    PageTable → (Nat → List Slot) → Nat → Nat → Prop where
  | init : TReach tbl ⟨[Page.new 0], 1⟩ (fun _ => []) 0 0
  | ins {pt sf i d t pid off pt2} : TReach tbl pt sf i d → wfT tbl t = true →
      PageTable.insert_tuple tbl pt t = .ok ((pid, off), pt2) →
      TReach tbl pt2 (updF sf pid (fun l => l ++ [⟨true, t, []⟩])) (i + 1) d
  | del {pt sf i d pid j pt2} : TReach tbl pt sf i d →
      (hj : j < (sf pid).length) → ((sf pid).get ⟨j, hj⟩).alive = true →
      PageTable.delete_tuple pt pid (offsetOf (sf pid) j) = .ok pt2 →
      TReach tbl pt2 (updF sf pid (fun l => modifySlot killSlot l j)) i (d + 1)
  | ow {pt sf i d pid j t res pt2} : TReach tbl pt sf i d →
      (hj : j < (sf pid).length) → ((sf pid).get ⟨j, hj⟩).alive = true →
      wfT tbl t = true →
      PageTable.overwrite_tuple tbl pt pid (offsetOf (sf pid) j) t = .ok (res, pt2) →
      TReach tbl pt2 (owSlots sf (pt.page_count - 1) pid j t) i d

/-- Invariant of reachable page tables: the stored count matches the file,
the file is nonempty, every page's stored id is its index, every page is
represented by its slot map entry, and the map is empty past the file. -/
structure TInv (tbl : Table) (pt : PageTable) (sf : Nat → List Slot) : Prop where
  count : pt.page_count = pt.pages.length
  pos : 0 < pt.pages.length
  ids : ∀ i (h : i < pt.pages.length), (pt.pages.get ⟨i, h⟩).id = i
  rep : ∀ i (h : i < pt.pages.length), Represents tbl (pt.pages.get ⟨i, h⟩) (sf i)
  rest : ∀ i, pt.pages.length ≤ i → sf i = []

/-- Total number of alive slots over the first `n` pages. -/
def aliveTotal (sf : Nat → List Slot) (n : Nat) : Nat :=
  ((List.range n).map (fun i => aliveCount (sf i))).sum

/-- Extract the payload of a successful result (used only to name concrete
states in witness scenarios; the accompanying equations prove the results
are in fact successes). -/
def exOk {α : Type} (x : Except DBError α) (d : α) : α :=
  match x with
  | .ok v => v
  | .error _ => d

/-- Sample schema with a single Bool column (small witness scenarios). -/
def tbl1 : Table := ⟨1, "test", [⟨"b", .bool⟩]⟩

/-- Sample schema with a single String column. -/
def tblS : Table := ⟨2, "s", [⟨"v", .string⟩]⟩

/-- The four-column schema of the spec's end-to-end scenarios. -/
def tbl4 : Table :=
  ⟨3, "test4",
    [⟨"id", .int⟩, ⟨"name", .string⟩, ⟨"height", .double⟩, ⟨"is_fox", .bool⟩]⟩

/-- Tuple (true). -/
def tupT : Tuple := ⟨[.Bool true]⟩

/-- Tuple (false). -/
def tupF : Tuple := ⟨[.Bool false]⟩

/-- The spec's sample row (1, 'test', 1.874, true). -/
def tup4 : Tuple :=
  ⟨[.Int 1, .String [116, 101, 115, 116], .Double 4611118564874339222, .Bool true]⟩

/-- Freshly initialized single-page table file (PageTable::init). -/
def wt0 : PageTable := ⟨[Page.new 0], 1⟩

/-- wt0 after inserting (true): one alive slot at offset 0. -/
def wt1 : PageTable := (exOk (PageTable.insert_tuple tbl1 wt0 tupT) ((0, 0), wt0)).2

/-- wt1 after inserting (false): alive slots at offsets 0 and 4. -/
def wt2 : PageTable := (exOk (PageTable.insert_tuple tbl1 wt1 tupF) ((0, 0), wt0)).2

/-- wt2 after deleting the slot at offset 0. -/
def wt3 : PageTable := exOk (PageTable.delete_tuple wt2 0 0) wt0

/-- Empty page of tbl1 histories. -/
def wp0 : Page := Page.new 0

/-- wp0 after inserting (true). -/
def wp1 : Page := (exOk (Page.insert_tuple tbl1 wp0 tupT) (0, wp0)).2

/-- wp1 after inserting (false). -/
def wp2 : Page := (exOk (Page.insert_tuple tbl1 wp1 tupF) (0, wp0)).2

/-- wp2 after tombstoning the slot at offset 0. -/
def wp3 : Page := exOk (Page.mark_tuple_dead wp2 0) wp0

/-- A literal page holding one alive slot of capacity 1 at offset 0
(payload byte 0, the encoding of (false)). -/
def wc4p : Page := ⟨0, 4, 0, 1 :: 0 :: 1 :: 0 :: List.replicate 8180 0⟩

/-- A page table whose stored count claims one page but whose file is
empty: get_page fails with the I/O error, the table iterator's error case. -/
def wpt9 : PageTable := ⟨[], 1⟩

/-- Fresh page after one mark_tuple_dead call at offset 0 (the code checks
neither that the offset is a slot start nor that the slot is alive). -/
def wc8p : Page := exOk (Page.mark_tuple_dead (Page.new 0) 0) (Page.new 0)

/-- Does the slot header at `off` read as a dead slot? -/
def headerDead (d : Bytes) (off : Nat) : Bool :=
  match readHeader d off with
  | some (false, _) => true
  | _ => false

/-- Did Page::overwrite_tuple succeed returning `true`? -/
def isOkTrue (r : Except DBError (Bool × Page)) : Bool :=
  match r with
  | .ok (true, _) => true
  | _ => false

/-- One-column string tuple holding "a" (serialized size 5). -/
def sA : Tuple := ⟨[.String [97]]⟩

/-- One-column string tuple holding "ab" (serialized size 6, too big for
the slot holding sA). -/
def sAB : Tuple := ⟨[.String [97, 98]]⟩

/-- Page of tblS after inserting sA: one alive slot of capacity 5. -/
def wpS1 : Page := (exOk (Page.insert_tuple tblS (Page.new 0) sA) (0, Page.new 0)).2

/-- wt3 after overwriting the alive slot at offset 4 with (true), in
place. -/
def wt4 : PageTable :=
  (exOk (PageTable.overwrite_tuple tbl1 wt3 0 4 tupT) ((0, 0), wt0)).2

/-- Slot map after the first witness insert. -/
def wsf1 : Nat → List Slot :=
  updF (fun _ => []) 0 (fun l => l ++ [⟨true, tupT, []⟩])

/-- Slot map after the second witness insert. -/
def wsf2 : Nat → List Slot := updF wsf1 0 (fun l => l ++ [⟨true, tupF, []⟩])

/-- Slot map after the witness delete. -/
def wsf3 : Nat → List Slot := updF wsf2 0 (fun l => modifySlot killSlot l 0)

/-- Slot map after the witness in-place overwrite. -/
def wsf4 : Nat → List Slot := owSlots wsf3 0 0 1 tupT

/-! Theorems.  Helper lemmas first, then one theorem per claim (with its
witness or counterexample), in claim order where dependencies allow. -/

theorem natToBE_length (k n : Nat) : (natToBE k n).length = k := by
  induction k generalizing n with
  | zero => rfl
  | succ k ih => simp [natToBE, ih]

theorem beNat_append_one (bs : Bytes) (b : Nat) :
    beNat (bs ++ [b]) = 256 * beNat bs + b := by
  simp [beNat, List.foldl_append]

theorem beNat_natToBE (k n : Nat) : beNat (natToBE k n) = n % 2 ^ (8 * k) := by
  induction k generalizing n with
  | zero => simp [natToBE, beNat, Nat.mod_one]
  | succ k ih =>
    have hp : 2 ^ (8 * (k + 1)) = 256 * 2 ^ (8 * k) := by
      rw [Nat.mul_succ, pow_add]; ring
    have hm : n % (256 * 2 ^ (8 * k)) = n % 256 + 256 * (n / 256 % 2 ^ (8 * k)) :=
      Nat.mod_mul
    rw [natToBE, beNat_append_one, ih, hp, hm]
    ring

theorem readN_append (bs r : Bytes) (n : Nat) (h : bs.length = n) :
    readN n (bs ++ r) = some (bs, r) := by
  induction bs generalizing n with
  | nil => rw [← h]; rfl
  | cons b bs2 ih =>
    rw [← h]
    show (readN bs2.length (bs2 ++ r)).map (fun p => (b :: p.1, p.2)) = _
    rw [ih bs2.length rfl]
    rfl

theorem writeAtAux_spec (bs : Bytes) :
    ∀ (acc A B : Bytes), bs.length ≤ B.length →
      writeAtAux acc (A ++ B) A.length bs =
        .ok (List.reverseAux acc (A ++ (bs ++ B.drop bs.length))) := by
  induction bs with
  | nil =>
    intro acc A B _
    induction A generalizing acc with
    | nil => cases B <;> rfl
    | cons a A2 ih =>
      show writeAtAux (a :: acc) (A2 ++ B) A2.length [] = _
      rw [ih (a :: acc)]
      rfl
  | cons b bs2 ih =>
    intro acc A B h
    induction A generalizing acc with
    | nil =>
      cases B with
      | nil => simp at h
      | cons x B2 =>
        show writeAtAux (b :: acc) B2 0 bs2 = _
        have h2 : bs2.length ≤ B2.length := by simpa using h
        have := ih (b :: acc) [] B2 h2
        simpa using this
    | cons a A2 ih2 =>
      show writeAtAux (a :: acc) (A2 ++ B) A2.length (b :: bs2) = _
      rw [ih2 (a :: acc)]
      rfl

theorem writeAt_spec (A B bs : Bytes) (off : Nat) (hA : A.length = off)
    (h : bs.length ≤ B.length) :
    writeAt (A ++ B) off bs = .ok (A ++ bs ++ B.drop bs.length) := by
  subst hA
  unfold writeAt
  rw [writeAtAux_spec bs [] A B h]
  simp [List.reverseAux, List.append_assoc]

theorem writeAtAux_error (d : Bytes) :
    ∀ (acc : Bytes) (off : Nat) (bs : Bytes) (e : DBError),
      writeAtAux acc d off bs = .error e → e = .io := by
  induction d with
  | nil =>
    intro acc off bs e h
    match off, bs with
    | 0, [] => exact absurd h (by simp [writeAtAux])
    | 0, b :: bs2 => exact (by simpa [writeAtAux] using h : DBError.io = e).symm
    | n + 1, bs => exact (by simpa [writeAtAux] using h : DBError.io = e).symm
  | cons x d2 ih =>
    intro acc off bs e h
    match off, bs with
    | 0, [] => exact absurd h (by simp [writeAtAux])
    | 0, b :: bs2 => exact ih _ _ _ _ h
    | n + 1, bs => exact ih _ _ _ _ h

theorem writeAt_error (d : Bytes) (off : Nat) (bs : Bytes) (e : DBError)
    (h : writeAt d off bs = .error e) : e = .io :=
  writeAtAux_error d [] off bs e h

theorem readU32_append (m : Nat) (r : Bytes) (h : m < 2 ^ 32) :
    readU32 (writeU32 m ++ r) = some (m, r) := by
  unfold readU32 writeU32
  rw [readN_append _ _ _ (natToBE_length 4 m)]
  simp only [Option.map, beNat_natToBE]
  have h4 : m % 2 ^ (8 * 4) = m := Nat.mod_eq_of_lt (by norm_num; omega)
  rw [h4]

theorem toI32_round (i : Int) (h1 : -(2 ^ 31) ≤ i) (h2 : i < 2 ^ 31) :
    toI32 (i % 2 ^ 32).toNat = i := by
  unfold toI32
  split_ifs with h <;> omega

theorem readI32_append (i : Int) (r : Bytes) (h1 : -(2 ^ 31) ≤ i)
    (h2 : i < 2 ^ 31) : readI32 (writeI32 i ++ r) = some (i, r) := by
  unfold readI32 writeI32
  rw [readN_append _ _ _ (natToBE_length 4 _)]
  simp only [Option.map, beNat_natToBE]
  have h4 : (i % 2 ^ 32).toNat % 2 ^ (8 * 4) = (i % 2 ^ 32).toNat :=
    Nat.mod_eq_of_lt (by norm_num; omega)
  rw [h4, toI32_round i h1 h2]

theorem readValue_round (v : DBValue) (r : Bytes) (h : wfValue v = true) :
    readValue v.dtype (valueBytes v ++ r) = some (v, r) := by
  cases v with
  | Bool b =>
    cases b <;> simp [readValue, valueBytes, DBValue.dtype, readBool, readU8]
  | Int i =>
    simp only [wfValue, Bool.and_eq_true, decide_eq_true_eq] at h
    simp [readValue, valueBytes, DBValue.dtype, readI32_append i r h.1 h.2]
  | Double bits =>
    simp only [wfValue, decide_eq_true_eq] at h
    have h8 : bits % 2 ^ (8 * 8) = bits :=
      Nat.mod_eq_of_lt (by norm_num; omega)
    simp only [readValue, valueBytes, DBValue.dtype,
      readN_append _ _ _ (natToBE_length 8 bits), Option.map, beNat_natToBE]
    rw [h8]
  | String s =>
    simp only [wfValue, Bool.and_eq_true, decide_eq_true_eq] at h
    simp only [readValue, valueBytes, DBValue.dtype, writeStringBytes,
      readStringBytes, List.append_assoc]
    simp [readU32_append _ _ h.1.1, readN_append s r _ rfl, h.2]

theorem valueBytes_length (v : DBValue) : (valueBytes v).length = v.len := by
  cases v <;> simp [valueBytes, DBValue.len, natToBE_length, writeStringBytes,
    writeU32, writeI32]

theorem tupleBytes_length (t : Tuple) : (tupleBytes t).length = t.size := by
  unfold tupleBytes Tuple.size
  induction t.values with
  | nil => rfl
  | cons v vs ih => simp [ih, valueBytes_length]

theorem writeVals_ok (vs : List DBValue) (cs : List ColumnDef)
    (hl : vs.length = cs.length)
    (hz : ∀ p ∈ vs.zip cs, p.1.dtype = p.2.dtype) :
    writeVals vs cs = .ok (vs.flatMap valueBytes) := by
  induction vs generalizing cs with
  | nil => cases cs with
    | nil => rfl
    | cons c cs => simp at hl
  | cons v vs ih =>
    cases cs with
    | nil => simp at hl
    | cons c cs =>
      have hd : v.dtype = c.dtype := hz (v, c) (by simp)
      simp only [writeVals, if_pos hd]
      rw [ih cs (by simpa using hl) (fun p hp => hz p (by simp [hp]))]
      rfl

theorem tuple_write_ok (tbl : Table) (t : Tuple)
    (h : Tuple.conforms tbl t = true) :
    Tuple.write tbl t = .ok (tupleBytes t) := by
  simp only [Tuple.conforms, Bool.and_eq_true, beq_iff_eq, List.all_eq_true] at h
  unfold Tuple.write
  rw [if_neg (by simp [h.1])]
  exact writeVals_ok _ _ h.1 (fun p hp => by
    have := h.2 p hp
    simpa using this)

theorem readVals_round (cs : List ColumnDef) (vs : List DBValue) (r : Bytes)
    (hl : vs.length = cs.length)
    (hz : ∀ p ∈ vs.zip cs, p.1.dtype = p.2.dtype)
    (hw : ∀ v ∈ vs, wfValue v = true) :
    readVals cs (vs.flatMap valueBytes ++ r) = .ok (vs, r) := by
  induction cs generalizing vs with
  | nil =>
    cases vs with
    | nil => rfl
    | cons v vs => simp at hl
  | cons c cs ih =>
    cases vs with
    | nil => simp at hl
    | cons v vs =>
      have hd : v.dtype = c.dtype := hz (v, c) (by simp)
      simp only [List.flatMap_cons, List.append_assoc, readVals, ← hd,
        readValue_round v _ (hw v (by simp))]
      rw [ih vs (by simpa using hl) (fun p hp => hz p (by simp [hp]))
        (fun x hx => hw x (by simp [hx]))]
      rfl

theorem tuple_read_round (tbl : Table) (t : Tuple) (r : Bytes)
    (hc : Tuple.conforms tbl t = true) (hw : wfTuple t = true) :
    Tuple.read tbl (tupleBytes t ++ r) = .ok (t, r) := by
  simp only [Tuple.conforms, Bool.and_eq_true, beq_iff_eq, List.all_eq_true] at hc
  simp only [wfTuple, List.all_eq_true] at hw
  unfold Tuple.read tupleBytes
  rw [readVals_round tbl.columns t.values r hc.1
    (fun p hp => by simpa using hc.2 p hp) hw]
  rfl

/-- C7: for every schema and every conforming well-formed tuple, the write
succeeds producing exactly the concatenated value encoding, whose length is
`Tuple::size`, and reading it back (from any continuation of the stream)
returns the identical tuple, consuming exactly that many bytes. -/
theorem c7_roundtrip (tbl : Table) (t : Tuple) (h : wfT tbl t = true)
    (r : Bytes) :
    Tuple.write tbl t = .ok (tupleBytes t) ∧
      (tupleBytes t).length = t.size ∧
      Tuple.read tbl (tupleBytes t ++ r) = .ok (t, r) := by
  simp only [wfT, Bool.and_eq_true] at h
  exact ⟨tuple_write_ok tbl t h.1, tupleBytes_length t,
    tuple_read_round tbl t r h.1 h.2⟩

/-- Witness for C7 at the spec's sample row (1, 'test', 1.874, true). -/
theorem c7_roundtrip_witness :
    Tuple.write tbl4 tup4 = .ok (tupleBytes tup4) ∧
      (tupleBytes tup4).length = tup4.size ∧
      Tuple.read tbl4 (tupleBytes tup4 ++ [9, 9]) = .ok (tup4, [9, 9]) :=
  c7_roundtrip tbl4 tup4 (by decide) [9, 9]

theorem pcmp_none_of_not_like (a b : DBValue)
    (h : likeTypedNumeric a b = false) : DBValue.partialCmp a b = none := by
  cases a <;> cases b <;> simp_all [likeTypedNumeric, DBValue.partialCmp]

/-- C3 (counterexample): the claim extends incomparability to `=` and `!=`,
but those go through the derived PartialEq, not PartialOrd: for the tuple
(Int 1) and the predicate `!= Bool true` the compared values are not
like-typed numerics, yet the row matches (cross-variant values are simply
unequal, so `!=` is true). -/
theorem c3_counterexample :
    likeTypedNumeric (DBValue.Int 1) (DBValue.Bool true) = false ∧
      tuple_matches ⟨[DBValue.Int 1]⟩ (WhereClause.Neq 0 (DBValue.Bool true)) = true := by
  constructor
  · rfl
  · rfl

/-- C3 (amended): for the four ordering predicates {<, <=, >, >=}, when the
compared values are not like-typed numerics (Int32/Int32 or
Double/Double), `partial_cmp` is incomparable (None) and the predicate
evaluates to false, so the row does not match. -/
theorem c3_ordering_incomparable (t : Tuple) (i : Nat) (v : DBValue)
    (h : likeTypedNumeric (t.values.getD i (.Bool false)) v = false) :
    DBValue.partialCmp (t.values.getD i (.Bool false)) v = none ∧
      tuple_matches t (.Lt i v) = false ∧
      tuple_matches t (.Lte i v) = false ∧
      tuple_matches t (.Gt i v) = false ∧
      tuple_matches t (.Gte i v) = false := by
  have hp := pcmp_none_of_not_like _ _ h
  have hp2 : (t.values[i]?.getD (DBValue.Bool false)).partialCmp v = none := by
    simpa [List.getD_eq_getElem?_getD] using hp
  refine ⟨hp, ?_, ?_, ?_, ?_⟩ <;>
    simp [tuple_matches, pcmpLt, pcmpLe, pcmpGt, pcmpGe, hp2]

/-- Witness for the amended C3: tuple (Int 1) against the literal
`Bool true` under each ordering predicate. -/
theorem c3_ordering_incomparable_witness :
    DBValue.partialCmp ((⟨[DBValue.Int 1]⟩ : Tuple).values.getD 0 (.Bool false))
        (DBValue.Bool true) = none ∧
      tuple_matches ⟨[DBValue.Int 1]⟩ (.Lt 0 (DBValue.Bool true)) = false ∧
      tuple_matches ⟨[DBValue.Int 1]⟩ (.Lte 0 (DBValue.Bool true)) = false ∧
      tuple_matches ⟨[DBValue.Int 1]⟩ (.Gt 0 (DBValue.Bool true)) = false ∧
      tuple_matches ⟨[DBValue.Int 1]⟩ (.Gte 0 (DBValue.Bool true)) = false :=
  c3_ordering_incomparable ⟨[DBValue.Int 1]⟩ 0 (DBValue.Bool true) rfl

/-- C10: parsing the one-character literal `'` is not total: the bool, i32
and f64 parses all fail, the single-quote branch fires, and the byte slice
`s[1..s.len() - 1]` panics (range 1..0) instead of producing any Result. -/
theorem c10_from_str_panics : fromStrOutcome ['\''] = FromStrOutcome.panicked := by
  rfl

theorem readHeader_some_bound {d : Bytes} {off : Nat} {a : Bool} {l : Nat}
    (h : readHeader d off = some (a, l)) : off + 3 ≤ d.length := by
  unfold readHeader at h
  rcases hd : d.drop off with _ | ⟨b, tl⟩
  · rw [hd] at h; exact absurd h (by simp)
  · rcases tl with _ | ⟨b1, tl2⟩
    · rw [hd] at h; exact absurd h (by simp)
    · rcases tl2 with _ | ⟨b2, rest⟩
      · rw [hd] at h; exact absurd h (by simp)
      · have h3 : 3 ≤ (d.drop off).length := by rw [hd]; simp
        rw [List.length_drop] at h3
        omega

theorem overwrite_alive_cases (tbl : Table) (p : Page) (off : Nat) (t : Tuple)
    (len : Nat) (hdl : p.data.length = PAGE_DATA_SIZE)
    (hc : Tuple.conforms tbl t = true)
    (hh : readHeader p.data off = some (true, len))
    (hb : off + 3 + len ≤ PAGE_DATA_SIZE) :
    (len < t.size ∧ Page.overwrite_tuple tbl p off t = .ok (false, p)) ∨
      (t.size ≤ len ∧ Page.overwrite_tuple tbl p off t =
        .ok (true, ⟨p.id, p.free_space_end, p.dead_space,
          p.data.take (off + 3) ++ tupleBytes t ++
            p.data.drop (off + 3 + t.size)⟩)) := by
  have hoff : ¬ PAGE_DATA_SIZE ≤ off := by
    have h3 := readHeader_some_bound hh; omega
  by_cases hlt : len < t.size
  · left
    refine ⟨hlt, ?_⟩
    unfold Page.overwrite_tuple
    rw [if_neg hoff, hh]
    simp [hlt]
  · right
    refine ⟨by omega, ?_⟩
    unfold Page.overwrite_tuple
    rw [if_neg hoff, hh]
    have hwr : writeAt p.data (off + 3) (tupleBytes t) =
        .ok (p.data.take (off + 3) ++ tupleBytes t ++
          p.data.drop (off + 3 + t.size)) := by
      conv_lhs => rw [← List.take_append_drop (off + 3) p.data]
      rw [writeAt_spec _ _ _ (off + 3)
        (by rw [List.length_take]; omega)
        (by rw [tupleBytes_length, List.length_drop, hdl]; omega)]
      rw [tupleBytes_length, List.drop_drop]
    simp [hlt, tuple_write_ok tbl t hc, hwr]

/-- C4: for a page and a conforming tuple, (a) at an in-bounds alive slot
with recorded length `len`, overwrite returns `Ok(true)` iff
`tuple.size() ≤ len`, and when `len < tuple.size()` it returns `Ok(false)`
with the page completely unmutated; (b) it fails with an integrity error
exactly when `slot_offset ≥ PAGE_DATA_SIZE` or the header at that offset
reads as `alive = false`. -/
theorem c4_overwrite_spec (tbl : Table) (p : Page) (off : Nat) (t : Tuple)
    (len : Nat) (hdl : p.data.length = PAGE_DATA_SIZE)
    (hc : Tuple.conforms tbl t = true) :
    (readHeader p.data off = some (true, len) →
      off + 3 + len ≤ PAGE_DATA_SIZE →
      (isOkTrue (Page.overwrite_tuple tbl p off t) = true ↔ t.size ≤ len) ∧
        (len < t.size → Page.overwrite_tuple tbl p off t = .ok (false, p))) ∧
    (Page.overwrite_tuple tbl p off t = .error .integrity ↔
      PAGE_DATA_SIZE ≤ off ∨ headerDead p.data off = true) := by
  constructor
  · intro hh hb
    rcases overwrite_alive_cases tbl p off t len hdl hc hh hb with
      ⟨hlt, heq⟩ | ⟨hle, heq⟩
    · constructor
      · rw [heq]
        constructor
        · intro hx; exact absurd hx (by simp [isOkTrue])
        · intro hx; omega
      · intro _; exact heq
    · constructor
      · rw [heq]
        constructor
        · intro _; exact hle
        · intro _; simp [isOkTrue]
      · intro hx; omega
  · constructor
    · intro herr
      by_cases hoff : PAGE_DATA_SIZE ≤ off
      · exact Or.inl hoff
      · right
        unfold Page.overwrite_tuple at herr
        rw [if_neg hoff] at herr
        rcases hh : readHeader p.data off with _ | ⟨alive, len2⟩
        · rw [hh] at herr; exact absurd herr (by simp)
        · rw [hh] at herr
          cases alive with
          | false => simp [headerDead, hh]
          | true =>
            exfalso
            by_cases hlt : len2 < t.size
            · simp [hlt] at herr
            · have hw := tuple_write_ok tbl t hc
              simp only [Bool.not_true, if_false, hlt, Bool.false_eq_true,
                hw] at herr
              cases hwa : writeAt p.data (off + 3) (tupleBytes t) with
              | ok d2 => rw [hwa] at herr; exact absurd herr (by simp)
              | error e =>
                rw [hwa] at herr
                have he := writeAt_error _ _ _ _ hwa
                rw [he] at herr
                exact absurd herr (by simp)
    · intro hr
      rcases hr with hoff | hdead
      · unfold Page.overwrite_tuple
        rw [if_pos hoff]
      · by_cases hoff : PAGE_DATA_SIZE ≤ off
        · unfold Page.overwrite_tuple
          rw [if_pos hoff]
        · unfold Page.overwrite_tuple
          rw [if_neg hoff]
          rcases hh : readHeader p.data off with _ | ⟨alive, len2⟩
          · simp [headerDead, hh] at hdead
          · cases alive with
            | false => simp
            | true => simp [headerDead, hh] at hdead

/-- Witness for C4: a literal page with one alive capacity-1 slot at
offset 0 and the conforming tuple (true) of size 1. -/
theorem c4_overwrite_spec_witness :
    (readHeader wc4p.data 0 = some (true, 1) →
      0 + 3 + 1 ≤ PAGE_DATA_SIZE →
      (isOkTrue (Page.overwrite_tuple tbl1 wc4p 0 tupT) = true ↔
          tupT.size ≤ 1) ∧
        (1 < tupT.size →
          Page.overwrite_tuple tbl1 wc4p 0 tupT = .ok (false, wc4p))) ∧
    (Page.overwrite_tuple tbl1 wc4p 0 tupT = .error .integrity ↔
      PAGE_DATA_SIZE ≤ 0 ∨ headerDead wc4p.data 0 = true) :=
  c4_overwrite_spec tbl1 wc4p 0 tupT 1
    (by
      show (1 :: 0 :: 1 :: 0 :: List.replicate 8180 0 : Bytes).length = PAGE_DATA_SIZE
      rw [List.length_cons, List.length_cons, List.length_cons,
        List.length_cons, List.length_replicate]
      rfl)
    (by decide)

theorem headerBytes_cons (a : Bool) (n : Nat) :
    headerBytes a n = (if a then 1 else 0) :: n / 256 % 256 :: n % 256 :: [] := by
  simp [headerBytes, writeU16, natToBE]

theorem headerBytes_length (a : Bool) (n : Nat) : (headerBytes a n).length = 3 := by
  simp [headerBytes_cons]

theorem slotBytes_length (s : Slot) : (slotBytes s).length = slotSize s := by
  simp [slotBytes, slotSize, slotLen, headerBytes_length, tupleBytes_length]

theorem slotsBytes_append (l1 l2 : List Slot) :
    slotsBytes (l1 ++ l2) = slotsBytes l1 ++ slotsBytes l2 := by
  simp [slotsBytes]

theorem slotsBytes_length (l : List Slot) : (slotsBytes l).length = sumSizes l := by
  induction l with
  | nil => rfl
  | cons s r ih =>
    simp [slotsBytes, sumSizes, List.flatMap_cons, slotBytes_length] at *
    simp [ih]

theorem sumSizes_append (l1 l2 : List Slot) :
    sumSizes (l1 ++ l2) = sumSizes l1 + sumSizes l2 := by
  simp [sumSizes]

theorem deadSum_append (l1 l2 : List Slot) :
    deadSum (l1 ++ l2) = deadSum l1 + deadSum l2 := by
  simp [deadSum, List.filter_append]

theorem list_split_at {α : Type} (l : List α) (j : Nat) (hj : j < l.length) :
    l = l.take j ++ l.get ⟨j, hj⟩ :: l.drop (j + 1) := by
  induction l generalizing j with
  | nil => simp at hj
  | cons x xs ih =>
    cases j with
    | zero => simp
    | succ j2 =>
      have h2 := ih j2 (by simpa using hj)
      conv_lhs => rw [h2]
      simp

theorem modifySlot_eq (f : Slot → Slot) (l : List Slot) (j : Nat)
    (hj : j < l.length) :
    modifySlot f l j = l.take j ++ f (l.get ⟨j, hj⟩) :: l.drop (j + 1) := by
  induction l generalizing j with
  | nil => simp at hj
  | cons x xs ih =>
    cases j with
    | zero => simp [modifySlot]
    | succ j2 =>
      have := ih j2 (by simpa using hj)
      simpa [modifySlot] using this

theorem sumSizes_cons (s : Slot) (r : List Slot) :
    sumSizes (s :: r) = slotSize s + sumSizes r := by
  simp [sumSizes]

theorem deadSum_cons (s : Slot) (r : List Slot) :
    deadSum (s :: r) = (if s.alive then 0 else slotSize s) + deadSum r := by
  cases ha : s.alive <;> simp [deadSum, List.filter_cons, ha]

theorem sumSizes_split (l : List Slot) (j : Nat) (hj : j < l.length) :
    sumSizes l = offsetOf l j + slotSize (l.get ⟨j, hj⟩) +
      sumSizes (l.drop (j + 1)) := by
  conv_lhs => rw [list_split_at l j hj]
  rw [sumSizes_append, sumSizes_cons, offsetOf]
  ring

theorem offsetOf_succ (l : List Slot) (j : Nat) (hj : j < l.length) :
    offsetOf l (j + 1) = offsetOf l j + slotSize (l.get ⟨j, hj⟩) := by
  unfold offsetOf
  conv_lhs => rw [List.take_add]
  rw [sumSizes_append]
  congr 1
  rw [List.drop_eq_getElem_cons hj]
  show sumSizes (List.take 1 (l.get ⟨j, hj⟩ :: l.drop (j + 1))) = _
  rw [List.take_cons (by omega)]
  simp [sumSizes_cons, sumSizes]

theorem offsetOf_ge_length (l : List Slot) (j : Nat) (hj : l.length ≤ j) :
    offsetOf l j = sumSizes l := by
  unfold offsetOf
  rw [List.take_of_length_le hj]

theorem u16_decode (n : Nat) (hn : n < 2 ^ 16) :
    256 * (n / 256 % 256) + n % 256 = n := by
  have h1 : n % (256 * 256) = n % 256 + 256 * (n / 256 % 256) := Nat.mod_mul
  have h2 : n % (256 * 256) = n := Nat.mod_eq_of_lt (by omega)
  omega

theorem readHeader_at_slotBytes {d : Bytes} {off : Nat} {s : Slot}
    {rest : Bytes} (h : d.drop off = slotBytes s ++ rest)
    (hn : slotLen s < 2 ^ 16) :
    readHeader d off = some (s.alive, slotLen s) := by
  unfold readHeader
  rw [h, slotBytes, headerBytes_cons]
  simp only [List.cons_append, List.nil_append, List.append_assoc]
  cases ha : s.alive <;> simp [u16_decode _ hn]

theorem drop_at_slot (tbl : Table) (p : Page) (slots : List Slot)
    (R : Represents tbl p slots) (j : Nat) (hj : j < slots.length) :
    p.data.drop (offsetOf slots j) =
      slotBytes (slots.get ⟨j, hj⟩) ++
        (slotsBytes (slots.drop (j + 1)) ++ p.data.drop (sumSizes slots)) := by
  have hsplit : slotsBytes slots =
      slotsBytes (slots.take j) ++
        (slotBytes (slots.get ⟨j, hj⟩) ++ slotsBytes (slots.drop (j + 1))) := by
    conv_lhs => rw [list_split_at slots j hj]
    rw [slotsBytes_append]
    congr 1
  conv_lhs => rw [R.dataEq, hsplit]
  rw [List.append_assoc]
  rw [List.drop_left' (by rw [slotsBytes_length]; rfl)]
  simp [List.append_assoc]

theorem slot_len_bound (tbl : Table) (p : Page) (slots : List Slot)
    (R : Represents tbl p slots) (j : Nat) (hj : j < slots.length) :
    offsetOf slots j + 3 + slotLen (slots.get ⟨j, hj⟩) ≤ sumSizes slots ∧
      slotLen (slots.get ⟨j, hj⟩) < 2 ^ 16 := by
  have hs := sumSizes_split slots j hj
  have hb := R.bound
  have hpd : PAGE_DATA_SIZE = 8184 := rfl
  unfold slotSize at hs
  omega

theorem readHeader_at_slot (tbl : Table) (p : Page) (slots : List Slot)
    (R : Represents tbl p slots) (j : Nat) (hj : j < slots.length) :
    readHeader p.data (offsetOf slots j) =
      some ((slots.get ⟨j, hj⟩).alive, slotLen (slots.get ⟨j, hj⟩)) :=
  readHeader_at_slotBytes (drop_at_slot tbl p slots R j hj)
    (slot_len_bound tbl p slots R j hj).2

theorem drop_payload (tbl : Table) (p : Page) (slots : List Slot)
    (R : Represents tbl p slots) (j : Nat) (hj : j < slots.length) :
    p.data.drop (offsetOf slots j + 3) =
      tupleBytes (slots.get ⟨j, hj⟩).tuple ++
        ((slots.get ⟨j, hj⟩).pad ++
          (slotsBytes (slots.drop (j + 1)) ++ p.data.drop (sumSizes slots))) := by
  rw [← List.drop_drop]
  rw [drop_at_slot tbl p slots R j hj]
  rw [slotBytes]
  rw [List.append_assoc, List.append_assoc]
  rw [List.drop_left' (headerBytes_length _ _)]

theorem alivePairs_cons (base : Nat) (s : Slot) (rest : List Slot) :
    alivePairs base (s :: rest) =
      if s.alive then
        (base, s.tuple) :: alivePairs (base + slotSize s) rest
      else alivePairs (base + slotSize s) rest := rfl

theorem length_le_sumSizes (slots : List Slot) :
    slots.length ≤ sumSizes slots := by
  induction slots with
  | nil => simp [sumSizes]
  | cons s r ih =>
    rw [sumSizes_cons]
    simp only [List.length_cons]
    unfold slotSize
    omega

theorem scanFrom_spec (tbl : Table) (p : Page) (slots : List Slot)
    (R : Represents tbl p slots) :
    ∀ (fuel j : Nat), slots.length - j < fuel →
      Page.scanFrom tbl p fuel (offsetOf slots j) =
        some ((alivePairs (offsetOf slots j) (slots.drop j)).map
          (fun q => (q.1, Except.ok q.2))) := by
  intro fuel
  induction fuel with
  | zero => intro j hj; omega
  | succ fuel ih =>
    intro j hj
    by_cases hjlt : j < slots.length
    case neg =>
      have hj2 : slots.length ≤ j := by omega
      rw [offsetOf_ge_length _ _ hj2, List.drop_eq_nil_of_le hj2]
      show (if sumSizes slots < p.free_space_end then _ else _) = _
      rw [if_neg (by rw [R.fse]; omega)]
      rfl
    case pos =>
      have hh := readHeader_at_slot tbl p slots R j hjlt
      have hsb := slot_len_bound tbl p slots R j hjlt
      have hlt : offsetOf slots j < p.free_space_end := by
        rw [R.fse]; omega
      have hnext : offsetOf slots j + 3 + slotLen (slots.get ⟨j, hjlt⟩) =
          offsetOf slots (j + 1) := by
        rw [offsetOf_succ slots j hjlt, slotSize]; ring
      have hdropj : slots.drop j =
          slots.get ⟨j, hjlt⟩ :: slots.drop (j + 1) :=
        List.drop_eq_getElem_cons hjlt
      show (if offsetOf slots j < p.free_space_end then _ else _) = _
      rw [if_pos hlt, hh]
      cases ha : (slots.get ⟨j, hjlt⟩).alive with
      | false =>
        simp only [Bool.false_eq_true, if_false]
        rw [hnext, ih (j + 1) (by omega)]
        rw [hdropj, alivePairs_cons, ha]
        simp only [Bool.false_eq_true, if_false, slotSize]
        rw [show offsetOf slots j + (3 + slotLen (slots.get ⟨j, hjlt⟩)) =
          offsetOf slots (j + 1) from by rw [← hnext]; ring]
      | true =>
        simp only [if_true]
        rw [hnext, ih (j + 1) (by omega)]
        have hwf : wfSlot tbl (slots.get ⟨j, hjlt⟩) = true :=
          R.wf _ (slots.get_mem j hjlt)
        simp only [wfSlot, wfT, Bool.and_eq_true] at hwf
        have hread : Tuple.read tbl (p.data.drop (offsetOf slots j + 3)) =
            .ok ((slots.get ⟨j, hjlt⟩).tuple,
              (slots.get ⟨j, hjlt⟩).pad ++
                (slotsBytes (slots.drop (j + 1)) ++
                  p.data.drop (sumSizes slots))) := by
          rw [drop_payload tbl p slots R j hjlt]
          exact tuple_read_round tbl _ _ hwf.1 hwf.2
        rw [hread]
        rw [hdropj, alivePairs_cons, ha]
        simp only [if_true, List.map_cons, slotSize]
        rw [show offsetOf slots j + (3 + slotLen (slots.get ⟨j, hjlt⟩)) =
          offsetOf slots (j + 1) from by rw [← hnext]; ring]
        rfl

theorem scan_spec (tbl : Table) (p : Page) (slots : List Slot)
    (R : Represents tbl p slots) :
    Page.scan tbl p =
      some ((alivePairs 0 slots).map (fun q => (q.1, Except.ok q.2))) := by
  have hlen := length_le_sumSizes slots
  have hb := R.bound
  have h := scanFrom_spec tbl p slots R (p.free_space_end + 1) 0
    (by rw [R.fse]; omega)
  unfold Page.scan
  simpa [offsetOf] using h

theorem represents_mk (tbl : Table) (id fse dead : Nat) (slots : List Slot)
    (junk : Bytes) (hfse : fse = sumSizes slots)
    (hb : sumSizes slots ≤ PAGE_DATA_SIZE) (hdead : dead = deadSum slots)
    (hlen : sumSizes slots + junk.length = PAGE_DATA_SIZE)
    (hwf : ∀ s ∈ slots, wfSlot tbl s = true) :
    Represents tbl ⟨id, fse, dead, slotsBytes slots ++ junk⟩ slots := by
  refine ⟨hfse, hb, hdead, ?_, ?_, hwf⟩
  · show (slotsBytes slots ++ junk).length = PAGE_DATA_SIZE
    rw [List.length_append, slotsBytes_length]
    omega
  · show slotsBytes slots ++ junk =
      slotsBytes slots ++ (slotsBytes slots ++ junk).drop (sumSizes slots)
    rw [List.drop_left' (slotsBytes_length slots)]

theorem data_as_three (tbl : Table) (p : Page) (slots : List Slot)
    (R : Represents tbl p slots) (j : Nat) (hj : j < slots.length) :
    p.data = slotsBytes (slots.take j) ++
      (slotBytes (slots.get ⟨j, hj⟩) ++
        (slotsBytes (slots.drop (j + 1)) ++ p.data.drop (sumSizes slots))) := by
  have hsplit : slotsBytes slots =
      slotsBytes (slots.take j) ++
        (slotBytes (slots.get ⟨j, hj⟩) ++ slotsBytes (slots.drop (j + 1))) := by
    conv_lhs => rw [list_split_at slots j hj]
    rw [slotsBytes_append]
    congr 1
  conv_lhs => rw [R.dataEq, hsplit]
  simp [List.append_assoc]

theorem sumSizes_modify (f : Slot → Slot) (slots : List Slot) (j : Nat)
    (hj : j < slots.length)
    (h : slotSize (f (slots.get ⟨j, hj⟩)) = slotSize (slots.get ⟨j, hj⟩)) :
    sumSizes (modifySlot f slots j) = sumSizes slots := by
  rw [modifySlot_eq f slots j hj, sumSizes_append, sumSizes_cons, h]
  conv_rhs => rw [sumSizes_split slots j hj]
  unfold offsetOf
  ring

theorem deadSum_modify_kill (slots : List Slot) (j : Nat)
    (hj : j < slots.length) (ha : (slots.get ⟨j, hj⟩).alive = true) :
    deadSum (modifySlot killSlot slots j) =
      deadSum slots + slotSize (slots.get ⟨j, hj⟩) := by
  rw [modifySlot_eq killSlot slots j hj, deadSum_append, deadSum_cons]
  have hrhs : deadSum slots = deadSum (slots.take j) +
      ((if (slots.get ⟨j, hj⟩).alive then 0
        else slotSize (slots.get ⟨j, hj⟩)) + deadSum (slots.drop (j + 1))) := by
    conv_lhs => rw [list_split_at slots j hj]
    rw [deadSum_append, deadSum_cons]
  have hk : (killSlot (slots.get ⟨j, hj⟩)).alive = false := rfl
  have hs : slotSize (killSlot (slots.get ⟨j, hj⟩)) =
      slotSize (slots.get ⟨j, hj⟩) := rfl
  rw [hrhs, ha, hk, hs]
  simp only [Bool.false_eq_true, if_false, if_true]
  ring

theorem deadSum_modify_alive (f : Slot → Slot) (slots : List Slot) (j : Nat)
    (hj : j < slots.length) (ha : (slots.get ⟨j, hj⟩).alive = true)
    (hf : (f (slots.get ⟨j, hj⟩)).alive = true) :
    deadSum (modifySlot f slots j) = deadSum slots := by
  rw [modifySlot_eq f slots j hj, deadSum_append, deadSum_cons]
  have hrhs : deadSum slots = deadSum (slots.take j) +
      ((if (slots.get ⟨j, hj⟩).alive then 0
        else slotSize (slots.get ⟨j, hj⟩)) + deadSum (slots.drop (j + 1))) := by
    conv_lhs => rw [list_split_at slots j hj]
    rw [deadSum_append, deadSum_cons]
  rw [hrhs, ha, hf]
  simp

theorem wf_modify (tbl : Table) (f : Slot → Slot) (slots : List Slot) (j : Nat)
    (hj : j < slots.length) (hwf : ∀ s ∈ slots, wfSlot tbl s = true)
    (hf : wfSlot tbl (f (slots.get ⟨j, hj⟩)) = true) :
    ∀ s ∈ modifySlot f slots j, wfSlot tbl s = true := by
  rw [modifySlot_eq f slots j hj]
  intro s hs
  rcases List.mem_append.mp hs with h1 | h2
  · exact hwf s (List.mem_of_mem_take h1)
  · rcases List.mem_cons.mp h2 with h3 | h4
    · rw [h3]; exact hf
    · exact hwf s (List.mem_of_mem_drop h4)

theorem wf_append_one (tbl : Table) (slots : List Slot) (s2 : Slot)
    (hwf : ∀ s ∈ slots, wfSlot tbl s = true) (h2 : wfSlot tbl s2 = true) :
    ∀ s ∈ slots ++ [s2], wfSlot tbl s = true := by
  intro s hs
  rcases List.mem_append.mp hs with h1 | h3
  · exact hwf s h1
  · rw [List.mem_singleton.mp h3]; exact h2

theorem sumSizes_snoc (slots : List Slot) (t : Tuple) :
    sumSizes (slots ++ [Slot.mk true t []]) = sumSizes slots + 3 + t.size := by
  rw [sumSizes_append]
  simp [sumSizes, slotSize, slotLen]
  ring

theorem deadSum_snoc (slots : List Slot) (t : Tuple) :
    deadSum (slots ++ [Slot.mk true t []]) = deadSum slots := by
  rw [deadSum_append]
  simp [deadSum]

theorem insert_spec (tbl : Table) (p : Page) (slots : List Slot) (t : Tuple)
    (R : Represents tbl p slots) (hw : wfT tbl t = true)
    (hfit : sumSizes slots + 3 + t.size ≤ PAGE_DATA_SIZE) :
    Page.insert_tuple tbl p t = .ok (sumSizes slots,
      ⟨p.id, sumSizes slots + 3 + t.size, p.dead_space,
        slotsBytes (slots ++ [Slot.mk true t []]) ++
          p.data.drop (sumSizes slots + 3 + t.size)⟩) ∧
    Represents tbl
      ⟨p.id, sumSizes slots + 3 + t.size, p.dead_space,
        slotsBytes (slots ++ [Slot.mk true t []]) ++
          p.data.drop (sumSizes slots + 3 + t.size)⟩
      (slots ++ [Slot.mk true t []]) := by
  have hpd : PAGE_DATA_SIZE = 8184 := rfl
  have hwc := hw
  simp only [wfT, Bool.and_eq_true] at hwc
  have hjunk : (p.data.drop (sumSizes slots)).length =
      PAGE_DATA_SIZE - sumSizes slots := by
    rw [List.length_drop, R.dlen]
  have hdata2 : slotsBytes (slots ++ [Slot.mk true t []]) ++
      p.data.drop (sumSizes slots + 3 + t.size) =
      slotsBytes slots ++ headerBytes true t.size ++ tupleBytes t ++
        ((p.data.drop (sumSizes slots)).drop 3).drop t.size := by
    rw [slotsBytes_append]
    have hsb : slotsBytes [Slot.mk true t []] =
        headerBytes true t.size ++ tupleBytes t := by
      simp [slotsBytes, slotBytes, slotLen]
    rw [hsb]
    rw [List.drop_drop, List.drop_drop]
    rw [show sumSizes slots + 3 + t.size = sumSizes slots + (3 + t.size) by ring]
    simp [List.append_assoc]
  constructor
  · have hcan : p.can_fit_tuple t = true := by
      simp only [Page.can_fit_tuple, Page.free_space, R.fse,
        decide_eq_true_eq]
      omega
    unfold Page.insert_tuple
    rw [hcan]
    simp only [Bool.not_true, Bool.false_eq_true, if_false, R.fse]
    have hw1 : writeAt p.data (sumSizes slots) (headerBytes true t.size) =
        .ok (slotsBytes slots ++ (headerBytes true t.size ++
          (p.data.drop (sumSizes slots)).drop 3)) := by
      conv_lhs => rw [R.dataEq]
      rw [writeAt_spec _ _ _ _ (slotsBytes_length slots)
        (by rw [headerBytes_length]; omega)]
      rw [headerBytes_length]
      simp [List.append_assoc]
    have hw2 : writeAt
        (slotsBytes slots ++ (headerBytes true t.size ++
          (p.data.drop (sumSizes slots)).drop 3))
        (sumSizes slots + 3) (tupleBytes t) =
        .ok ((slotsBytes slots ++ headerBytes true t.size) ++ (tupleBytes t ++
          ((p.data.drop (sumSizes slots)).drop 3).drop t.size)) := by
      rw [show slotsBytes slots ++ (headerBytes true t.size ++
          (p.data.drop (sumSizes slots)).drop 3) =
        (slotsBytes slots ++ headerBytes true t.size) ++
          (p.data.drop (sumSizes slots)).drop 3 by simp [List.append_assoc]]
      rw [writeAt_spec _ _ _ _
        (by rw [List.length_append, slotsBytes_length, headerBytes_length])
        (by rw [tupleBytes_length, List.length_drop]; omega)]
      rw [tupleBytes_length]
      simp [List.append_assoc]
    have hmod : sumSizes slots % 65536 = sumSizes slots :=
      Nat.mod_eq_of_lt (by omega)
    simp only [hw1, tuple_write_ok tbl t hwc.1, hw2]
    rw [hdata2]
    simp [hmod, List.append_assoc, List.drop_drop]
  · rw [hdata2]
    have hgoal : slotsBytes slots ++ headerBytes true t.size ++ tupleBytes t ++
        ((p.data.drop (sumSizes slots)).drop 3).drop t.size =
        slotsBytes (slots ++ [Slot.mk true t []]) ++
          ((p.data.drop (sumSizes slots)).drop 3).drop t.size := by
      rw [slotsBytes_append]
      have hsb : slotsBytes [Slot.mk true t []] =
          headerBytes true t.size ++ tupleBytes t := by
        simp [slotsBytes, slotBytes, slotLen]
      rw [hsb]
      simp [List.append_assoc]
    rw [hgoal]
    refine represents_mk tbl p.id _ p.dead_space _ _ ?_ ?_ ?_ ?_ ?_
    · rw [sumSizes_snoc]
    · rw [sumSizes_snoc]; omega
    · rw [deadSum_snoc]; exact R.dead
    · rw [sumSizes_snoc]
      rw [List.length_drop, List.length_drop, hjunk]
      omega
    · refine wf_append_one tbl slots _ R.wf ?_
      simpa [wfSlot] using hw

theorem take_at_slot (tbl : Table) (p : Page) (slots : List Slot)
    (R : Represents tbl p slots) (j : Nat) (hj : j < slots.length) :
    p.data.take (offsetOf slots j) = slotsBytes (slots.take j) := by
  conv_lhs => rw [data_as_three tbl p slots R j hj]
  exact List.take_left' (by rw [slotsBytes_length]; rfl)

theorem mark_spec (tbl : Table) (p : Page) (slots : List Slot)
    (R : Represents tbl p slots) (j : Nat) (hj : j < slots.length)
    (ha : (slots.get ⟨j, hj⟩).alive = true) :
    Page.mark_tuple_dead p (offsetOf slots j) = .ok
      ⟨p.id, p.free_space_end,
        p.dead_space + 3 + slotLen (slots.get ⟨j, hj⟩),
        slotsBytes (modifySlot killSlot slots j) ++
          p.data.drop (sumSizes slots)⟩ ∧
    Represents tbl
      ⟨p.id, p.free_space_end,
        p.dead_space + 3 + slotLen (slots.get ⟨j, hj⟩),
        slotsBytes (modifySlot killSlot slots j) ++
          p.data.drop (sumSizes slots)⟩
      (modifySlot killSlot slots j) := by
  have hpd : PAGE_DATA_SIZE = 8184 := rfl
  have hb := slot_len_bound tbl p slots R j hj
  have hbb := R.bound
  have hoff : ¬ PAGE_DATA_SIZE ≤ offsetOf slots j := by omega
  have hh := readHeader_at_slot tbl p slots R j hj
  rw [ha] at hh
  have hkillbytes : slotBytes (killSlot (slots.get ⟨j, hj⟩)) =
      headerBytes false (slotLen (slots.get ⟨j, hj⟩)) ++
        (tupleBytes (slots.get ⟨j, hj⟩).tuple ++ (slots.get ⟨j, hj⟩).pad) := by
    simp [slotBytes, killSlot, slotLen, List.append_assoc]
  have hwAt : writeAt p.data (offsetOf slots j)
      (headerBytes false (slotLen (slots.get ⟨j, hj⟩))) =
      .ok (slotsBytes (modifySlot killSlot slots j) ++
        p.data.drop (sumSizes slots)) := by
    conv_lhs => rw [data_as_three tbl p slots R j hj]
    rw [writeAt_spec _ _ _ _ (by rw [slotsBytes_length]; rfl)
      (by rw [headerBytes_length, List.length_append, slotBytes_length,
        slotSize]; omega)]
    rw [headerBytes_length]
    have hdrop3 : (slotBytes (slots.get ⟨j, hj⟩) ++
        (slotsBytes (slots.drop (j + 1)) ++
          p.data.drop (sumSizes slots))).drop 3 =
        (tupleBytes (slots.get ⟨j, hj⟩).tuple ++ (slots.get ⟨j, hj⟩).pad) ++
          (slotsBytes (slots.drop (j + 1)) ++ p.data.drop (sumSizes slots)) := by
      rw [slotBytes]
      rw [show (headerBytes (slots.get ⟨j, hj⟩).alive
          (slotLen (slots.get ⟨j, hj⟩)) ++
          tupleBytes (slots.get ⟨j, hj⟩).tuple ++ (slots.get ⟨j, hj⟩).pad) ++
          (slotsBytes (slots.drop (j + 1)) ++ p.data.drop (sumSizes slots)) =
        headerBytes (slots.get ⟨j, hj⟩).alive (slotLen (slots.get ⟨j, hj⟩)) ++
          ((tupleBytes (slots.get ⟨j, hj⟩).tuple ++ (slots.get ⟨j, hj⟩).pad) ++
            (slotsBytes (slots.drop (j + 1)) ++ p.data.drop (sumSizes slots)))
        by simp [List.append_assoc]]
      exact List.drop_left' (headerBytes_length _ _)
    rw [hdrop3]
    rw [modifySlot_eq killSlot slots j hj, slotsBytes_append]
    rw [show slotsBytes (killSlot (slots.get ⟨j, hj⟩) :: slots.drop (j + 1)) =
      slotBytes (killSlot (slots.get ⟨j, hj⟩)) ++
        slotsBytes (slots.drop (j + 1)) from rfl]
    rw [hkillbytes]
    simp [List.append_assoc]
  have hsum : sumSizes (modifySlot killSlot slots j) = sumSizes slots :=
    sumSizes_modify killSlot slots j hj rfl
  constructor
  · unfold Page.mark_tuple_dead
    rw [if_neg hoff]
    simp only [hh, hwAt]
  · rw [show slotsBytes (modifySlot killSlot slots j) ++
        p.data.drop (sumSizes slots) =
      slotsBytes (modifySlot killSlot slots j) ++
        p.data.drop (sumSizes slots) from rfl]
    refine represents_mk tbl p.id _ _ _ _ ?_ ?_ ?_ ?_ ?_
    · rw [hsum]; exact R.fse
    · rw [hsum]; exact R.bound
    · rw [deadSum_modify_kill slots j hj ha, ← R.dead, slotSize]; ring
    · rw [hsum, List.length_drop, R.dlen]; omega
    · exact wf_modify tbl killSlot slots j hj R.wf
        (by simpa [wfSlot, killSlot] using R.wf _ (slots.get_mem j hj))

theorem slotBytes_take3 (s : Slot) (rest : Bytes) :
    (slotBytes s ++ rest).take 3 = headerBytes s.alive (slotLen s) := by
  have h : slotBytes s ++ rest = headerBytes s.alive (slotLen s) ++
      (tupleBytes s.tuple ++ (s.pad ++ rest)) := by
    rw [slotBytes]
    simp [List.append_assoc]
  rw [h]
  exact List.take_left' (headerBytes_length _ _)

theorem ow_false_spec (tbl : Table) (p : Page) (slots : List Slot)
    (R : Represents tbl p slots) (j : Nat) (hj : j < slots.length)
    (ha : (slots.get ⟨j, hj⟩).alive = true) (t : Tuple)
    (hc : Tuple.conforms tbl t = true)
    (hgt : slotLen (slots.get ⟨j, hj⟩) < t.size) :
    Page.overwrite_tuple tbl p (offsetOf slots j) t = .ok (false, p) := by
  have hh := readHeader_at_slot tbl p slots R j hj
  rw [ha] at hh
  have hb := slot_len_bound tbl p slots R j hj
  have hbb := R.bound
  rcases overwrite_alive_cases tbl p (offsetOf slots j) t
      (slotLen (slots.get ⟨j, hj⟩)) R.dlen hc hh (by omega) with
    ⟨_, heq⟩ | ⟨hle, _⟩
  · exact heq
  · omega

theorem ow_spec (tbl : Table) (p : Page) (slots : List Slot)
    (R : Represents tbl p slots) (j : Nat) (hj : j < slots.length)
    (ha : (slots.get ⟨j, hj⟩).alive = true) (t : Tuple)
    (hw : wfT tbl t = true)
    (hfit : t.size ≤ slotLen (slots.get ⟨j, hj⟩)) :
    Page.overwrite_tuple tbl p (offsetOf slots j) t = .ok (true,
      ⟨p.id, p.free_space_end, p.dead_space,
        slotsBytes (modifySlot (fun s0 => overwriteSlot s0 t) slots j) ++
          p.data.drop (sumSizes slots)⟩) ∧
    Represents tbl
      ⟨p.id, p.free_space_end, p.dead_space,
        slotsBytes (modifySlot (fun s0 => overwriteSlot s0 t) slots j) ++
          p.data.drop (sumSizes slots)⟩
      (modifySlot (fun s0 => overwriteSlot s0 t) slots j) := by
  have hpd : PAGE_DATA_SIZE = 8184 := rfl
  have hwc := hw
  simp only [wfT, Bool.and_eq_true] at hwc
  have hh := readHeader_at_slot tbl p slots R j hj
  rw [ha] at hh
  have hb := slot_len_bound tbl p slots R j hj
  have hbb := R.bound
  have hXlen : (tupleBytes (slots.get ⟨j, hj⟩).tuple ++
      (slots.get ⟨j, hj⟩).pad).length = slotLen (slots.get ⟨j, hj⟩) := by
    rw [List.length_append, tupleBytes_length, slotLen]
  have hf2 : t.size ≤ (slots.get ⟨j, hj⟩).tuple.size +
      (slots.get ⟨j, hj⟩).pad.length := hfit
  have hslotLen : slotLen (overwriteSlot (slots.get ⟨j, hj⟩) t) =
      slotLen (slots.get ⟨j, hj⟩) := by
    show t.size + ((tupleBytes (slots.get ⟨j, hj⟩).tuple ++
      (slots.get ⟨j, hj⟩).pad).drop t.size).length = slotLen (slots.get ⟨j, hj⟩)
    rw [List.length_drop, hXlen]
    omega
  have hdata : p.data.take (offsetOf slots j + 3) ++ tupleBytes t ++
      p.data.drop (offsetOf slots j + 3 + t.size) =
      slotsBytes (modifySlot (fun s0 => overwriteSlot s0 t) slots j) ++
        p.data.drop (sumSizes slots) := by
    have hlA : (slotsBytes (slots.take j)).length = offsetOf slots j := by
      rw [slotsBytes_length]; rfl
    have htake : p.data.take (offsetOf slots j + 3) =
        slotsBytes (slots.take j) ++
          headerBytes (slots.get ⟨j, hj⟩).alive
            (slotLen (slots.get ⟨j, hj⟩)) := by
      conv_lhs => rw [data_as_three tbl p slots R j hj]
      rw [List.take_append_eq_append_take]
      rw [List.take_of_length_le (by rw [hlA]; omega)]
      rw [hlA]
      rw [show offsetOf slots j + 3 - offsetOf slots j = 3 by omega]
      rw [slotBytes_take3]
    have hdrop : p.data.drop (offsetOf slots j + 3 + t.size) =
        (tupleBytes (slots.get ⟨j, hj⟩).tuple ++
          (slots.get ⟨j, hj⟩).pad).drop t.size ++
          (slotsBytes (slots.drop (j + 1)) ++ p.data.drop (sumSizes slots)) := by
      rw [← List.drop_drop]
      rw [drop_payload tbl p slots R j hj]
      rw [show tupleBytes (slots.get ⟨j, hj⟩).tuple ++
          ((slots.get ⟨j, hj⟩).pad ++
            (slotsBytes (slots.drop (j + 1)) ++ p.data.drop (sumSizes slots))) =
        (tupleBytes (slots.get ⟨j, hj⟩).tuple ++ (slots.get ⟨j, hj⟩).pad) ++
          (slotsBytes (slots.drop (j + 1)) ++ p.data.drop (sumSizes slots))
        by simp [List.append_assoc]]
      rw [List.drop_append_eq_append_drop]
      rw [hXlen]
      rw [show t.size - slotLen (slots.get ⟨j, hj⟩) = 0 by omega]
      rw [List.drop_zero]
    rw [htake, hdrop]
    rw [modifySlot_eq _ slots j hj, slotsBytes_append]
    rw [show slotsBytes (overwriteSlot (slots.get ⟨j, hj⟩) t ::
        slots.drop (j + 1)) =
      slotBytes (overwriteSlot (slots.get ⟨j, hj⟩) t) ++
        slotsBytes (slots.drop (j + 1)) from rfl]
    rw [slotBytes, hslotLen]
    rw [show (overwriteSlot (slots.get ⟨j, hj⟩) t).tuple = t from rfl]
    rw [show (overwriteSlot (slots.get ⟨j, hj⟩) t).pad =
      (tupleBytes (slots.get ⟨j, hj⟩).tuple ++
        (slots.get ⟨j, hj⟩).pad).drop t.size from rfl]
    rw [show (overwriteSlot (slots.get ⟨j, hj⟩) t).alive = true from rfl, ha]
    simp [List.append_assoc]
  have hsum : sumSizes (modifySlot (fun s0 => overwriteSlot s0 t) slots j) =
      sumSizes slots :=
    sumSizes_modify _ slots j hj (by rw [slotSize, slotSize, hslotLen])
  constructor
  · rcases overwrite_alive_cases tbl p (offsetOf slots j) t
        (slotLen (slots.get ⟨j, hj⟩)) R.dlen hwc.1 hh (by omega) with
      ⟨hlt, _⟩ | ⟨_, heq⟩
    · omega
    · rw [heq, ← hdata]
  · rw [← hdata, hdata]
    refine represents_mk tbl p.id _ _ _ _ ?_ ?_ ?_ ?_ ?_
    · rw [hsum]; exact R.fse
    · rw [hsum]; exact R.bound
    · rw [deadSum_modify_alive _ slots j hj ha rfl]; exact R.dead
    · rw [hsum, List.length_drop, R.dlen]; omega
    · exact wf_modify tbl _ slots j hj R.wf
        (by simpa [wfSlot, overwriteSlot] using hw)

theorem preach_represents (tbl : Table) {p : Page} {slots : List Slot}
    (h : PReach tbl p slots) : Represents tbl p slots := by
  induction h with
  | new id =>
    refine ⟨rfl, by simp [sumSizes], rfl, by simp [Page.new], ?_, by simp⟩
    simp [Page.new, slotsBytes, sumSizes]
  | ins hp hw hins ih =>
    rename_i p slots t off p2
    cases hcan : p.can_fit_tuple t with
    | false =>
      exfalso
      unfold Page.insert_tuple at hins
      rw [hcan] at hins
      exact absurd hins (by simp)
    | true =>
      have hfit : sumSizes slots + 3 + t.size ≤ PAGE_DATA_SIZE := by
        have hb := ih.bound
        simp only [Page.can_fit_tuple, Page.free_space, ih.fse,
          decide_eq_true_eq] at hcan
        omega
      have hspec := insert_spec tbl p slots t ih hw hfit
      rw [hspec.1] at hins
      simp only [Except.ok.injEq, Prod.mk.injEq] at hins
      rw [← hins.2]
      exact hspec.2
  | kill hp hj ha hmark ih =>
    rename_i p slots j p2
    have hspec := mark_spec tbl p slots ih j hj ha
    rw [hspec.1] at hmark
    simp only [Except.ok.injEq] at hmark
    rw [← hmark]
    exact hspec.2
  | ow hp hj ha hw how ih =>
    rename_i p slots j t p2
    by_cases hfit : t.size ≤ slotLen (slots.get ⟨j, hj⟩)
    · have hspec := ow_spec tbl p slots ih j hj ha t hw hfit
      rw [hspec.1] at how
      simp only [Except.ok.injEq, Prod.mk.injEq] at how
      rw [← how.2]
      exact hspec.2
    · exfalso
      have hwc := hw
      simp only [wfT, Bool.and_eq_true] at hwc
      have hfalse := ow_false_spec tbl p slots ih j hj ha t hwc.1 (by omega)
      rw [hfalse] at how
      simp at how

/-- C8 (counterexample): the claim is wrong on two counts.  PAGE_DATA_SIZE
is 8184 (8192 minus the 8-byte page header), not 8180.  And the invariant
`dead_space ≤ free_space_end` fails on a state reachable through new and
mark-dead alone: mark_tuple_dead never checks that its offset designates an
alive slot, so calling it at offset 0 of a fresh page succeeds (the zeroed
header reads as a dead slot of length 0) and leaves
`dead_space = 3 > 0 = free_space_end`. -/
theorem c8_counterexample :
    PAGE_DATA_SIZE = 8184 ∧
    Page.mark_tuple_dead (Page.new 0) 0 = .ok wc8p ∧
    ¬ (wc8p.dead_space ≤ wc8p.free_space_end) := by
  refine ⟨rfl, rfl, ?_⟩
  intro h
  have h1 : wc8p.free_space_end = 0 := rfl
  have h2 : wc8p.dead_space = 3 := rfl
  omega

theorem splitFirstErr_ok (l : List (Nat × Tuple)) :
    splitFirstErr (l.map (fun q => (q.1, Except.ok q.2))) = (l, none) := by
  induction l with
  | nil => rfl
  | cons q r ih => simp [splitFirstErr, ih]

theorem get_page_ok (pt : PageTable) (pid : Nat)
    (hc : pt.page_count = pt.pages.length) (h : pid < pt.pages.length) :
    pt.get_page pid = .ok (pt.pages.get ⟨pid, h⟩) := by
  unfold PageTable.get_page
  rw [if_neg (by omega)]
  simp only [List.getElem?_eq_getElem h]
  rfl

theorem tableScanFrom_spec (tbl : Table) (pt : PageTable)
    (sf : Nat → List Slot) (hc : pt.page_count = pt.pages.length)
    (hr : ∀ i (h : i < pt.pages.length),
      Represents tbl (pt.pages.get ⟨i, h⟩) (sf i)) :
    ∀ (fuel pid : Nat), pt.page_count - pid ≤ fuel →
      tableScanFrom tbl pt fuel pid =
        some ((List.range' pid (pt.page_count - pid)).flatMap
          (fun i => (alivePairs 0 (sf i)).map
            (fun q => Except.ok (i, q.1, q.2)))) := by
  intro fuel
  induction fuel with
  | zero =>
    intro pid h
    rw [show pt.page_count - pid = 0 by omega]
    rfl
  | succ fuel ih =>
    intro pid h
    by_cases hp : pid < pt.page_count
    case neg =>
      show (if pid < pt.page_count then _ else _) = _
      rw [if_neg hp, show pt.page_count - pid = 0 by omega]
      rfl
    case pos =>
      have hpl : pid < pt.pages.length := by omega
      show (if pid < pt.page_count then _ else _) = _
      rw [if_pos hp]
      simp only [get_page_ok pt pid hc hpl,
        scan_spec tbl (pt.pages.get ⟨pid, hpl⟩) (sf pid) (hr pid hpl),
        splitFirstErr_ok, ih (pid + 1) (by omega)]
      rw [show pt.page_count - pid = (pt.page_count - (pid + 1)) + 1 by omega]
      rw [List.range'_succ]
      simp [Option.map]

/-- C1: for every table file whose pages are page histories (built from
`Page::new` by inserts, tombstonings of alive slots and in-place
overwrites — so the alive slots are exactly the tuples inserted and not
marked dead, in insertion order), the sequential scan yields exactly those
tuples as `(page_id, slot_offset, tuple)` triples, pages in index order and
within each page in ascending slot offset; dead slots contribute nothing. -/
theorem c1_scan_yields_alive (tbl : Table) (pt : PageTable)
    (sf : Nat → List Slot) (hc : pt.page_count = pt.pages.length)
    (hr : ∀ i (h : i < pt.pages.length),
      PReach tbl (pt.pages.get ⟨i, h⟩) (sf i)) :
    tableScan tbl pt =
      some ((List.range pt.page_count).flatMap
        (fun i => (alivePairs 0 (sf i)).map
          (fun q => Except.ok (i, q.1, q.2)))) := by
  have h := tableScanFrom_spec tbl pt sf hc
    (fun i hi => preach_represents tbl (hr i hi)) pt.page_count 0 (by omega)
  unfold tableScan
  rw [h, Nat.sub_zero, List.range_eq_range']

/-- Witness for C1: one page holding two inserted one-column tuples with
the first tombstoned; the scan yields exactly the remaining one. -/
theorem c1_scan_yields_alive_witness :
    tableScan tbl1 ⟨[wp3], 1⟩ = some [Except.ok (0, 4, tupF)] := by
  have h0 : PReach tbl1 wp0 [] := PReach.new 0
  have h1 : PReach tbl1 wp1 [⟨true, tupT, []⟩] :=
    PReach.ins h0 (by decide) rfl
  have h2 : PReach tbl1 wp2 [⟨true, tupT, []⟩, ⟨true, tupF, []⟩] :=
    PReach.ins h1 (by decide) rfl
  have h3 : PReach tbl1 wp3 [⟨false, tupT, []⟩, ⟨true, tupF, []⟩] :=
    @PReach.kill tbl1 wp2 [⟨true, tupT, []⟩, ⟨true, tupF, []⟩] 0 wp3
      h2 (by decide) rfl rfl
  exact c1_scan_yields_alive tbl1 ⟨[wp3], 1⟩
    (fun _ => [⟨false, tupT, []⟩, ⟨true, tupF, []⟩]) rfl
    (fun i h => by
      match i, h with
      | 0, _ => exact h3)

theorem represents_new (tbl : Table) (id : Nat) :
    Represents tbl (Page.new id) [] := by
  refine ⟨rfl, by simp [sumSizes], rfl, by simp [Page.new], ?_, by simp⟩
  simp [Page.new, slotsBytes, sumSizes]

theorem deadSum_le_sumSizes (slots : List Slot) :
    deadSum slots ≤ sumSizes slots := by
  induction slots with
  | nil => simp [deadSum, sumSizes]
  | cons s r ih =>
    rw [deadSum_cons, sumSizes_cons]
    cases s.alive <;> simp <;> omega

/-- C8 (amended): with the actual PAGE_DATA_SIZE of 8184 and the mutation
operations applied as the executor applies them (mark-dead and overwrite
targeting currently alive slots), every reachable page state satisfies
`free_space_end ≤ PAGE_DATA_SIZE` and `dead_space ≤ free_space_end`. -/
theorem c8_invariants (tbl : Table) (p : Page) (slots : List Slot)
    (h : PReach tbl p slots) :
    p.free_space_end ≤ PAGE_DATA_SIZE ∧ p.dead_space ≤ p.free_space_end := by
  have R := preach_represents tbl h
  refine ⟨by rw [R.fse]; exact R.bound, ?_⟩
  rw [R.fse, R.dead]
  exact deadSum_le_sumSizes slots

/-- Witness for the amended C8 at a two-insert one-tombstone page. -/
theorem c8_invariants_witness :
    wp3.free_space_end ≤ PAGE_DATA_SIZE ∧
      wp3.dead_space ≤ wp3.free_space_end := by
  have h0 : PReach tbl1 wp0 [] := PReach.new 0
  have h1 : PReach tbl1 wp1 [⟨true, tupT, []⟩] :=
    PReach.ins h0 (by decide) rfl
  have h2 : PReach tbl1 wp2 [⟨true, tupT, []⟩, ⟨true, tupF, []⟩] :=
    PReach.ins h1 (by decide) rfl
  have h3 : PReach tbl1 wp3 [⟨false, tupT, []⟩, ⟨true, tupF, []⟩] :=
    @PReach.kill tbl1 wp2 [⟨true, tupT, []⟩, ⟨true, tupF, []⟩] 0 wp3
      h2 (by decide) rfl rfl
  exact c8_invariants tbl1 wp3 [⟨false, tupT, []⟩, ⟨true, tupF, []⟩] h3

theorem aliveCount_cons (s : Slot) (r : List Slot) :
    aliveCount (s :: r) = (if s.alive then 1 else 0) + aliveCount r := by
  cases h : s.alive
  · simp [aliveCount, List.filter_cons, h]
  · simp [aliveCount, List.filter_cons, h, Nat.add_comm]

theorem aliveCount_append (l1 l2 : List Slot) :
    aliveCount (l1 ++ l2) = aliveCount l1 + aliveCount l2 := by
  simp [aliveCount, List.filter_append]

theorem aliveCount_kill (l : List Slot) (j : Nat) (hj : j < l.length)
    (ha : (l.get ⟨j, hj⟩).alive = true) :
    aliveCount (modifySlot killSlot l j) + 1 = aliveCount l := by
  rw [modifySlot_eq killSlot l j hj]
  conv_rhs => rw [list_split_at l j hj]
  rw [aliveCount_append, aliveCount_append, aliveCount_cons, aliveCount_cons]
  rw [show (killSlot (l.get ⟨j, hj⟩)).alive = false from rfl, ha]
  simp
  omega

theorem aliveCount_ow (l : List Slot) (j : Nat) (t : Tuple)
    (hj : j < l.length) (ha : (l.get ⟨j, hj⟩).alive = true) :
    aliveCount (modifySlot (fun s0 => overwriteSlot s0 t) l j) = aliveCount l := by
  rw [modifySlot_eq _ l j hj]
  conv_rhs => rw [list_split_at l j hj]
  rw [aliveCount_append, aliveCount_append, aliveCount_cons, aliveCount_cons]
  rw [show (overwriteSlot (l.get ⟨j, hj⟩) t).alive = true from rfl, ha]

theorem alivePairs_length (l : List Slot) :
    ∀ base, (alivePairs base l).length = aliveCount l := by
  induction l with
  | nil => intro base; rfl
  | cons s r ih =>
    intro base
    rw [aliveCount_cons]
    cases h : s.alive
    · simp [alivePairs, h, ih]
    · simp [alivePairs, h, ih, Nat.add_comm]

theorem aliveTotal_succ (sf : Nat → List Slot) (n : Nat) :
    aliveTotal sf (n + 1) = aliveTotal sf n + aliveCount (sf n) := by
  unfold aliveTotal
  rw [List.range_succ n, List.map_append, List.sum_append]
  simp

theorem aliveTotal_congr (sf sf2 : Nat → List Slot) (n : Nat)
    (h : ∀ i, i < n → sf i = sf2 i) : aliveTotal sf n = aliveTotal sf2 n := by
  induction n with
  | zero => rfl
  | succ n ih =>
    rw [aliveTotal_succ, aliveTotal_succ, ih (fun i hi => h i (by omega)),
      h n (by omega)]

theorem aliveTotal_updF (sf : Nat → List Slot) (pid : Nat)
    (f : List Slot → List Slot) :
    ∀ n, pid < n →
      aliveTotal (updF sf pid f) n + aliveCount (sf pid) =
        aliveTotal sf n + aliveCount (f (sf pid)) := by
  intro n
  induction n with
  | zero => intro h; exact absurd h (Nat.not_lt_zero pid)
  | succ n ih =>
    intro h
    rw [aliveTotal_succ, aliveTotal_succ]
    by_cases hp : pid = n
    · subst hp
      have hcongr : aliveTotal (updF sf pid f) pid = aliveTotal sf pid :=
        aliveTotal_congr _ _ _ (fun i hi => by
          simp [updF, show ¬ (i = pid) by omega])
      rw [hcongr, show updF sf pid f pid = f (sf pid) by simp [updF]]
      omega
    · have h1 := ih (by omega)
      have h2 : updF sf pid f n = sf n := by
        simp [updF, show ¬ (n = pid) from fun hh => hp hh.symm]
      rw [h2]
      omega

theorem updF_comm (sf : Nat → List Slot) (a b : Nat)
    (f g : List Slot → List Slot) (hab : a ≠ b) :
    updF (updF sf a f) b g = updF (updF sf b g) a f := by
  funext k
  by_cases h1 : k = a
  · subst h1
    simp [updF, hab]
  · by_cases h2 : k = b
    · subst h2
      simp [updF, h1]
    · simp [updF, h1, h2]

theorem pid_lt_of_slots (tbl : Table) (pt : PageTable) (sf : Nat → List Slot)
    (I : TInv tbl pt sf) (pid : Nat) (h : sf pid ≠ []) :
    pid < pt.pages.length := by
  by_contra hle
  exact h (I.rest pid (by omega))

theorem tinv_single (tbl : Table) (p : Page) (slots : List Slot)
    (hid : p.id = 0) (hrep : Represents tbl p slots) :
    TInv tbl ⟨[p], 1⟩ (fun k => if k = 0 then slots else []) := by
  refine ⟨rfl, by simp, ?_, ?_, ?_⟩
  · intro i h
    simp only [List.length_singleton] at h
    have h0 : i = 0 := by omega
    subst h0
    exact hid
  · intro i h
    simp only [List.length_singleton] at h
    have h0 : i = 0 := by omega
    subst h0
    simpa using hrep
  · intro i h
    simp only [List.length_singleton] at h
    have h0 : ¬ (i = 0) := by omega
    simp [h0]

theorem save_page_set (pt : PageTable) (p : Page)
    (h : p.id < pt.pages.length) (hc : pt.page_count = pt.pages.length) :
    pt.save_page p = ⟨pt.pages.set p.id p, pt.page_count⟩ := by
  simp only [PageTable.save_page]
  rw [if_pos h, if_neg (by omega)]

theorem save_page_append (pt : PageTable) (p : Page)
    (hid : p.id = pt.pages.length) (hc : pt.page_count = pt.pages.length) :
    pt.save_page p = ⟨pt.pages ++ [p], pt.page_count + 1⟩ := by
  simp only [PageTable.save_page]
  rw [if_neg (by omega), if_pos (by omega)]
  simp [hid, hc]

theorem tinv_set (tbl : Table) (pt : PageTable) (sf : Nat → List Slot)
    (I : TInv tbl pt sf) (pid : Nat) (p : Page) (f : List Slot → List Slot)
    (hpl : pid < pt.pages.length) (hid : p.id = pid)
    (hrep : Represents tbl p (f (sf pid))) :
    TInv tbl ⟨pt.pages.set pid p, pt.page_count⟩ (updF sf pid f) := by
  refine ⟨?_, ?_, ?_, ?_, ?_⟩
  · rw [List.length_set]; exact I.count
  · simpa using I.pos
  · intro i h
    simp only [List.length_set] at h
    by_cases hip : i = pid
    · subst hip
      simpa using hid
    · simp only [List.get_eq_getElem, List.getElem_set_ne (Ne.symm hip)]
      exact I.ids i h
  · intro i h
    simp only [List.length_set] at h
    by_cases hip : i = pid
    · subst hip
      have hupd : updF sf i f i = f (sf i) := by simp [updF]
      rw [hupd]
      simpa using hrep
    · have hupd : updF sf pid f i = sf i := by simp [updF, hip]
      rw [hupd]
      simp only [List.get_eq_getElem, List.getElem_set_ne (Ne.symm hip)]
      exact I.rep i h
  · intro i h
    simp only [List.length_set] at h
    have hip : ¬ (i = pid) := by omega
    have hupd : updF sf pid f i = sf i := by simp [updF, hip]
    rw [hupd]
    exact I.rest i h

theorem tinv_append (tbl : Table) (pt : PageTable) (sf : Nat → List Slot)
    (I : TInv tbl pt sf) (p : Page) (f : List Slot → List Slot)
    (hid : p.id = pt.pages.length) (hrep : Represents tbl p (f [])) :
    TInv tbl ⟨pt.pages ++ [p], pt.page_count + 1⟩
      (updF sf pt.pages.length f) := by
  have hrest0 : sf pt.pages.length = [] := I.rest _ le_rfl
  refine ⟨?_, ?_, ?_, ?_, ?_⟩
  · simp [I.count]
  · simp
  · intro i h
    simp only [List.length_append, List.length_singleton] at h
    by_cases hip : i = pt.pages.length
    · subst hip
      simpa using hid
    · have hlt : i < pt.pages.length := by omega
      simp only [List.get_eq_getElem, List.getElem_append_left hlt]
      exact I.ids i hlt
  · intro i h
    simp only [List.length_append, List.length_singleton] at h
    by_cases hip : i = pt.pages.length
    · subst hip
      have hupd : updF sf pt.pages.length f pt.pages.length =
          f (sf pt.pages.length) := by simp [updF]
      rw [hupd, hrest0]
      simpa using hrep
    · have hlt : i < pt.pages.length := by omega
      have hupd : updF sf pt.pages.length f i = sf i := by simp [updF, hip]
      rw [hupd]
      simp only [List.get_eq_getElem, List.getElem_append_left hlt]
      exact I.rep i hlt
  · intro i h
    simp only [List.length_append, List.length_singleton] at h
    have hip : ¬ (i = pt.pages.length) := by omega
    have hupd : updF sf pt.pages.length f i = sf i := by simp [updF, hip]
    rw [hupd]
    exact I.rest i (by omega)

theorem insert_spec_ex (tbl : Table) (p : Page) (slots : List Slot) (t : Tuple)
    (R : Represents tbl p slots) (hw : wfT tbl t = true)
    (hfit : sumSizes slots + 3 + t.size ≤ PAGE_DATA_SIZE) :
    ∃ p2, Page.insert_tuple tbl p t = .ok (sumSizes slots, p2) ∧
      p2.id = p.id ∧ p2.free_space_end = sumSizes slots + 3 + t.size ∧
      Represents tbl p2 (slots ++ [⟨true, t, []⟩]) := by
  obtain ⟨h1, h2⟩ := insert_spec tbl p slots t R hw hfit
  exact ⟨_, h1, rfl, rfl, h2⟩

theorem mark_spec_ex (tbl : Table) (p : Page) (slots : List Slot)
    (R : Represents tbl p slots) (j : Nat) (hj : j < slots.length)
    (ha : (slots.get ⟨j, hj⟩).alive = true) :
    ∃ p2, Page.mark_tuple_dead p (offsetOf slots j) = .ok p2 ∧ p2.id = p.id ∧
      p2.free_space_end = p.free_space_end ∧
      Represents tbl p2 (modifySlot killSlot slots j) := by
  obtain ⟨h1, h2⟩ := mark_spec tbl p slots R j hj ha
  exact ⟨_, h1, rfl, rfl, h2⟩

theorem ow_spec_ex (tbl : Table) (p : Page) (slots : List Slot)
    (R : Represents tbl p slots) (j : Nat) (hj : j < slots.length)
    (ha : (slots.get ⟨j, hj⟩).alive = true) (t : Tuple)
    (hw : wfT tbl t = true) (hfit : t.size ≤ slotLen (slots.get ⟨j, hj⟩)) :
    ∃ p2, Page.overwrite_tuple tbl p (offsetOf slots j) t = .ok (true, p2) ∧
      p2.id = p.id ∧
      Represents tbl p2 (modifySlot (fun s0 => overwriteSlot s0 t) slots j) := by
  obtain ⟨h1, h2⟩ := ow_spec tbl p slots R j hj ha t hw hfit
  exact ⟨_, h1, rfl, h2⟩

theorem insert_table_fail (tbl : Table) (pt : PageTable) (sf : Nat → List Slot)
    (I : TInv tbl pt sf) (t : Tuple) (hsz : PAGE_DATA_SIZE < 3 + t.size) :
    PageTable.insert_tuple tbl pt t = .error .integrity := by
  have hplt : pt.page_count - 1 < pt.pages.length := by
    have h1 := I.pos
    have h2 := I.count
    omega
  have hcan : ∀ p : Page, p.can_fit_tuple t = false := by
    intro p
    simp only [Page.can_fit_tuple, Page.free_space, decide_eq_false_iff_not]
    omega
  unfold PageTable.insert_tuple
  rw [get_page_ok pt (pt.page_count - 1) I.count hplt]
  simp only [Page.insert_tuple, hcan, Bool.not_false, if_true]

theorem insert_table_spec (tbl : Table) (pt : PageTable) (sf : Nat → List Slot)
    (I : TInv tbl pt sf) (t : Tuple) (hw : wfT tbl t = true)
    (hsz : 3 + t.size ≤ PAGE_DATA_SIZE) :
    ∃ pid off pt2,
      PageTable.insert_tuple tbl pt t = .ok ((pid, off), pt2) ∧
      TInv tbl pt2 (updF sf pid (fun l => l ++ [⟨true, t, []⟩])) ∧
      aliveTotal (updF sf pid (fun l => l ++ [⟨true, t, []⟩])) pt2.page_count =
        aliveTotal sf pt.page_count + 1 ∧
      (∀ i, i + 1 < pt.page_count → pt2.pages[i]? = pt.pages[i]?) ∧
      (if Page.can_fit_tuple (pt.pages.getD (pt.page_count - 1) (Page.new 0)) t
       then pid = pt.page_count - 1 ∧ off = sumSizes (sf pid) ∧
         pt2.page_count = pt.page_count
       else pid = pt.page_count ∧ off = 0 ∧
         pt2.page_count = pt.page_count + 1) ∧
      ∃ p, pt2.pages[pid]? = some p ∧
        Represents tbl p (sf pid ++ [⟨true, t, []⟩]) := by
  have hpos := I.pos
  have hcnt := I.count
  have hplt : pt.page_count - 1 < pt.pages.length := by omega
  have R0 := I.rep (pt.page_count - 1) hplt
  have hid0 := I.ids (pt.page_count - 1) hplt
  have hgetD : pt.pages.getD (pt.page_count - 1) (Page.new 0) =
      pt.pages.get ⟨pt.page_count - 1, hplt⟩ := by
    rw [List.getD_eq_getElem pt.pages (Page.new 0) hplt]
    rfl
  by_cases hcan : Page.can_fit_tuple (pt.pages.get ⟨pt.page_count - 1, hplt⟩) t = true
  · have hfit : sumSizes (sf (pt.page_count - 1)) + 3 + t.size ≤
        PAGE_DATA_SIZE := by
      have hc2 := hcan
      simp only [Page.can_fit_tuple, Page.free_space, R0.fse,
        decide_eq_true_eq] at hc2
      have hb := R0.bound
      omega
    obtain ⟨p2, hins, hidp2, hfse2, hrep2⟩ :=
      insert_spec_ex tbl _ (sf (pt.page_count - 1)) t R0 hw hfit
    have hidp2' : p2.id = pt.page_count - 1 := by rw [hidp2, hid0]
    have hsave : pt.save_page p2 =
        ⟨pt.pages.set (pt.page_count - 1) p2, pt.page_count⟩ := by
      rw [save_page_set pt p2 (by rw [hidp2']; exact hplt) hcnt, hidp2']
    have hpc : (pt.save_page p2).page_count = pt.page_count := by rw [hsave]
    have heval : PageTable.insert_tuple tbl pt t =
        .ok ((p2.id, sumSizes (sf (pt.page_count - 1))), pt.save_page p2) := by
      unfold PageTable.insert_tuple
      rw [get_page_ok pt (pt.page_count - 1) hcnt hplt]
      simp only [hcan, Bool.not_true, Bool.false_eq_true, if_false, hins]
    refine ⟨pt.page_count - 1, sumSizes (sf (pt.page_count - 1)),
      pt.save_page p2, ?_, ?_, ?_, ?_, ?_, ?_⟩
    · rw [heval, hidp2']
    · rw [hsave]
      exact tinv_set tbl pt sf I _ p2 _ hplt hidp2' hrep2
    · rw [hpc]
      have h1 := aliveTotal_updF sf (pt.page_count - 1)
        (fun l => l ++ [⟨true, t, []⟩]) pt.page_count (by omega)
      have h2 : aliveCount (sf (pt.page_count - 1) ++ [⟨true, t, []⟩]) =
          aliveCount (sf (pt.page_count - 1)) + 1 := by
        rw [aliveCount_append]
        rfl
      rw [h2] at h1
      omega
    · intro i hi
      have hpages : (pt.save_page p2).pages =
          pt.pages.set (pt.page_count - 1) p2 := by rw [hsave]
      rw [hpages]
      exact List.getElem?_set_ne (by omega)
    · rw [hgetD, if_pos hcan]
      exact ⟨rfl, rfl, hpc⟩
    · refine ⟨p2, ?_, hrep2⟩
      have hpages : (pt.save_page p2).pages =
          pt.pages.set (pt.page_count - 1) p2 := by rw [hsave]
      rw [hpages]
      exact List.getElem?_set_self (by omega)
  · obtain ⟨p2, hins, hidp2, hfse2, hrep2⟩ :=
      insert_spec_ex tbl (Page.new pt.page_count) [] t
        (represents_new tbl pt.page_count) hw
        (by rw [show sumSizes [] = 0 from rfl]; omega)
    have hidp2' : p2.id = pt.page_count := hidp2
    have hrest0 : sf pt.page_count = [] := I.rest pt.page_count (by omega)
    have hsave : pt.save_page p2 = ⟨pt.pages ++ [p2], pt.page_count + 1⟩ :=
      save_page_append pt p2 (by rw [hidp2']; exact hcnt) hcnt
    have hpc : (pt.save_page p2).page_count = pt.page_count + 1 := by rw [hsave]
    have hpages : (pt.save_page p2).pages = pt.pages ++ [p2] := by rw [hsave]
    have heval : PageTable.insert_tuple tbl pt t =
        .ok ((p2.id, sumSizes ([] : List Slot)), pt.save_page p2) := by
      unfold PageTable.insert_tuple
      rw [get_page_ok pt (pt.page_count - 1) hcnt hplt]
      simp only [Bool.not_eq_true] at hcan
      simp only [hcan, Bool.not_false, if_true, hins]
    refine ⟨pt.page_count, 0, pt.save_page p2, ?_, ?_, ?_, ?_, ?_, ?_⟩
    · rw [heval, hidp2']
      rfl
    · have hTA := tinv_append tbl pt sf I p2 (fun l => l ++ [⟨true, t, []⟩])
        (by rw [hidp2', hcnt]) hrep2
      rw [← hcnt] at hTA
      rw [hsave]
      exact hTA
    · rw [hpc, aliveTotal_succ]
      have hc1 : aliveTotal (updF sf pt.page_count
          (fun l => l ++ [⟨true, t, []⟩])) pt.page_count =
          aliveTotal sf pt.page_count :=
        aliveTotal_congr _ _ _ (fun i hi => by
          simp [updF, show ¬ (i = pt.page_count) by omega])
      have hc2 : updF sf pt.page_count (fun l => l ++ [⟨true, t, []⟩])
          pt.page_count = sf pt.page_count ++ [⟨true, t, []⟩] := by
        simp [updF]
      rw [hc1, hc2, hrest0]
      rfl
    · intro i hi
      rw [hpages, List.getElem?_append, if_pos (by omega)]
    · rw [hgetD, if_neg hcan]
      exact ⟨rfl, rfl, hpc⟩
    · refine ⟨p2, ?_, ?_⟩
      · rw [hpages, List.getElem?_append_right (by omega), hcnt]
        simp
      · rw [hrest0]
        exact hrep2

theorem delete_table_spec (tbl : Table) (pt : PageTable) (sf : Nat → List Slot)
    (I : TInv tbl pt sf) (pid j : Nat) (hj : j < (sf pid).length)
    (ha : ((sf pid).get ⟨j, hj⟩).alive = true) :
    ∃ pt2, PageTable.delete_tuple pt pid (offsetOf (sf pid) j) = .ok pt2 ∧
      TInv tbl pt2 (updF sf pid (fun l => modifySlot killSlot l j)) ∧
      pt2.page_count = pt.page_count ∧
      aliveTotal (updF sf pid (fun l => modifySlot killSlot l j))
          pt2.page_count + 1 = aliveTotal sf pt.page_count := by
  have hplt : pid < pt.pages.length :=
    pid_lt_of_slots tbl pt sf I pid (List.length_pos.mp (by omega))
  have R0 := I.rep pid hplt
  have hid0 := I.ids pid hplt
  obtain ⟨p2, hmark, hidp2, hfse2, hrep2⟩ :=
    mark_spec_ex tbl _ (sf pid) R0 j hj ha
  have hidp2' : p2.id = pid := by rw [hidp2, hid0]
  have hsave : pt.save_page p2 = ⟨pt.pages.set pid p2, pt.page_count⟩ := by
    rw [save_page_set pt p2 (by rw [hidp2']; exact hplt) I.count, hidp2']
  have hpc : (pt.save_page p2).page_count = pt.page_count := by rw [hsave]
  have heval : PageTable.delete_tuple pt pid (offsetOf (sf pid) j) =
      .ok (pt.save_page p2) := by
    unfold PageTable.delete_tuple
    rw [get_page_ok pt pid I.count hplt]
    simp only [hmark]
  refine ⟨pt.save_page p2, heval, ?_, hpc, ?_⟩
  · rw [hsave]
    exact tinv_set tbl pt sf I pid p2 _ hplt hidp2' hrep2
  · rw [hpc]
    have h1 := aliveTotal_updF sf pid (fun l => modifySlot killSlot l j)
      pt.page_count (by have := I.count; omega)
    simp only [] at h1
    have h2 := aliveCount_kill (sf pid) j hj ha
    omega

theorem ow_table_inplace (tbl : Table) (pt : PageTable) (sf : Nat → List Slot)
    (I : TInv tbl pt sf) (pid j : Nat) (hj : j < (sf pid).length)
    (ha : ((sf pid).get ⟨j, hj⟩).alive = true) (t : Tuple)
    (hw : wfT tbl t = true)
    (hfit : t.size ≤ slotLen ((sf pid).get ⟨j, hj⟩)) :
    ∃ p1, p1.id = pid ∧
      Represents tbl p1 (modifySlot (fun s0 => overwriteSlot s0 t) (sf pid) j) ∧
      PageTable.overwrite_tuple tbl pt pid (offsetOf (sf pid) j) t =
        .ok ((pid, offsetOf (sf pid) j), pt.save_page p1) := by
  have hplt : pid < pt.pages.length :=
    pid_lt_of_slots tbl pt sf I pid (List.length_pos.mp (by omega))
  have R0 := I.rep pid hplt
  have hid0 := I.ids pid hplt
  obtain ⟨p1, how, hidp1, hrep1⟩ :=
    ow_spec_ex tbl _ (sf pid) R0 j hj ha t hw hfit
  refine ⟨p1, by rw [hidp1, hid0], hrep1, ?_⟩
  unfold PageTable.overwrite_tuple
  rw [get_page_ok pt pid I.count hplt]
  simp only [how]

theorem ow_table_samepage (tbl : Table) (pt : PageTable) (sf : Nat → List Slot)
    (I : TInv tbl pt sf) (pid j : Nat) (hj : j < (sf pid).length)
    (ha : ((sf pid).get ⟨j, hj⟩).alive = true) (t : Tuple)
    (hw : wfT tbl t = true)
    (hgt : slotLen ((sf pid).get ⟨j, hj⟩) < t.size)
    (hfit2 : 3 + t.size ≤ PAGE_DATA_SIZE - sumSizes (sf pid)) :
    ∃ p3, p3.id = pid ∧
      Represents tbl p3 (modifySlot killSlot (sf pid) j ++ [⟨true, t, []⟩]) ∧
      PageTable.overwrite_tuple tbl pt pid (offsetOf (sf pid) j) t =
        .ok ((pid, sumSizes (sf pid)), pt.save_page p3) := by
  have hplt : pid < pt.pages.length :=
    pid_lt_of_slots tbl pt sf I pid (List.length_pos.mp (by omega))
  have R0 := I.rep pid hplt
  have hid0 := I.ids pid hplt
  have hwc := hw
  simp only [wfT, Bool.and_eq_true] at hwc
  have hfalse := ow_false_spec tbl _ (sf pid) R0 j hj ha t hwc.1 hgt
  obtain ⟨p2, hmark, hidp2, hfse2, hrep2⟩ :=
    mark_spec_ex tbl _ (sf pid) R0 j hj ha
  have hsum2 : sumSizes (modifySlot killSlot (sf pid) j) = sumSizes (sf pid) :=
    sumSizes_modify killSlot (sf pid) j hj rfl
  have hcan2 : p2.can_fit_tuple t = true := by
    simp only [Page.can_fit_tuple, Page.free_space, hfse2, R0.fse,
      decide_eq_true_eq]
    omega
  obtain ⟨p3, hins, hidp3, hfse3, hrep3⟩ :=
    insert_spec_ex tbl p2 (modifySlot killSlot (sf pid) j) t hrep2 hw
      (by rw [hsum2]; have := R0.bound; omega)
  refine ⟨p3, by rw [hidp3, hidp2, hid0], hrep3, ?_⟩
  unfold PageTable.overwrite_tuple
  rw [get_page_ok pt pid I.count hplt]
  simp only [hfalse, hmark, hcan2, if_true, hins, hsum2]

theorem ow_table_relocate (tbl : Table) (pt : PageTable) (sf : Nat → List Slot)
    (I : TInv tbl pt sf) (pid j : Nat) (hj : j < (sf pid).length)
    (ha : ((sf pid).get ⟨j, hj⟩).alive = true) (t : Tuple)
    (hw : wfT tbl t = true)
    (hgt : slotLen ((sf pid).get ⟨j, hj⟩) < t.size)
    (hnofit : PAGE_DATA_SIZE - sumSizes (sf pid) < 3 + t.size) :
    ∃ p2, p2.id = pid ∧
      Represents tbl p2 (modifySlot killSlot (sf pid) j) ∧
      PageTable.overwrite_tuple tbl pt pid (offsetOf (sf pid) j) t =
        (PageTable.insert_tuple tbl pt t).map
          (fun r => (r.1, PageTable.save_page r.2 p2)) := by
  have hplt : pid < pt.pages.length :=
    pid_lt_of_slots tbl pt sf I pid (List.length_pos.mp (by omega))
  have R0 := I.rep pid hplt
  have hid0 := I.ids pid hplt
  have hwc := hw
  simp only [wfT, Bool.and_eq_true] at hwc
  have hfalse := ow_false_spec tbl _ (sf pid) R0 j hj ha t hwc.1 hgt
  obtain ⟨p2, hmark, hidp2, hfse2, hrep2⟩ :=
    mark_spec_ex tbl _ (sf pid) R0 j hj ha
  have hcan2 : p2.can_fit_tuple t = false := by
    simp only [Page.can_fit_tuple, Page.free_space, hfse2, R0.fse,
      decide_eq_false_iff_not]
    omega
  refine ⟨p2, by rw [hidp2, hid0], hrep2, ?_⟩
  unfold PageTable.overwrite_tuple
  rw [get_page_ok pt pid I.count hplt]
  simp only [hfalse, hmark, hcan2, Bool.false_eq_true, if_false]
  cases hins : PageTable.insert_tuple tbl pt t with
  | error e => rfl
  | ok v =>
    rcases v with ⟨r, ptI⟩
    rfl

theorem overwrite_table_spec (tbl : Table) (pt : PageTable) (sf : Nat → List Slot)
    (I : TInv tbl pt sf) (pid j : Nat) (hj : j < (sf pid).length)
    (ha : ((sf pid).get ⟨j, hj⟩).alive = true) (t : Tuple)
    (hw : wfT tbl t = true) (res : Nat × Nat) (pt2 : PageTable)
    (heq : PageTable.overwrite_tuple tbl pt pid (offsetOf (sf pid) j) t =
      .ok (res, pt2)) :
    TInv tbl pt2 (owSlots sf (pt.page_count - 1) pid j t) ∧
    aliveTotal (owSlots sf (pt.page_count - 1) pid j t) pt2.page_count =
      aliveTotal sf pt.page_count := by
  have hplt : pid < pt.pages.length :=
    pid_lt_of_slots tbl pt sf I pid (List.length_pos.mp (by omega))
  have hcnt := I.count
  have hpos := I.pos
  have hpidlt : pid < pt.page_count := by omega
  have hgd : (sf pid).getD j ⟨false, ⟨[]⟩, []⟩ = (sf pid).get ⟨j, hj⟩ := by
    rw [List.getD_eq_getElem (sf pid) _ hj]
    rfl
  by_cases hfit : t.size ≤ slotLen ((sf pid).get ⟨j, hj⟩)
  · have hOW : owSlots sf (pt.page_count - 1) pid j t =
        updF sf pid (fun l => modifySlot (fun s0 => overwriteSlot s0 t) l j) := by
      simp only [owSlots]
      rw [hgd, if_pos hfit]
    obtain ⟨p1, hid1, hrep1, heval⟩ :=
      ow_table_inplace tbl pt sf I pid j hj ha t hw hfit
    rw [heval] at heq
    simp only [Except.ok.injEq, Prod.mk.injEq] at heq
    obtain ⟨hres, hpt2⟩ := heq
    subst hpt2
    have hsave : pt.save_page p1 = ⟨pt.pages.set pid p1, pt.page_count⟩ := by
      rw [save_page_set pt p1 (by rw [hid1]; exact hplt) hcnt, hid1]
    have hpc : (pt.save_page p1).page_count = pt.page_count := by rw [hsave]
    rw [hOW]
    constructor
    · rw [hsave]
      exact tinv_set tbl pt sf I pid p1 _ hplt hid1 hrep1
    · rw [hpc]
      have h1 := aliveTotal_updF sf pid
        (fun l => modifySlot (fun s0 => overwriteSlot s0 t) l j)
        pt.page_count hpidlt
      simp only [] at h1
      have h2 := aliveCount_ow (sf pid) j t hj ha
      omega
  · by_cases hfitB : 3 + t.size ≤ PAGE_DATA_SIZE - sumSizes (sf pid)
    · have hOW : owSlots sf (pt.page_count - 1) pid j t =
          updF sf pid (fun l => modifySlot killSlot l j ++ [⟨true, t, []⟩]) := by
        simp only [owSlots]
        rw [hgd, if_neg hfit, if_pos hfitB]
      obtain ⟨p3, hid3, hrep3, heval⟩ :=
        ow_table_samepage tbl pt sf I pid j hj ha t hw (by omega) hfitB
      rw [heval] at heq
      simp only [Except.ok.injEq, Prod.mk.injEq] at heq
      obtain ⟨hres, hpt2⟩ := heq
      subst hpt2
      have hsave : pt.save_page p3 = ⟨pt.pages.set pid p3, pt.page_count⟩ := by
        rw [save_page_set pt p3 (by rw [hid3]; exact hplt) hcnt, hid3]
      have hpc : (pt.save_page p3).page_count = pt.page_count := by rw [hsave]
      rw [hOW]
      constructor
      · rw [hsave]
        exact tinv_set tbl pt sf I pid p3 _ hplt hid3 hrep3
      · rw [hpc]
        have h1 := aliveTotal_updF sf pid
          (fun l => modifySlot killSlot l j ++ [⟨true, t, []⟩])
          pt.page_count hpidlt
        simp only [] at h1
        have h2 : aliveCount (modifySlot killSlot (sf pid) j ++
            [⟨true, t, []⟩]) = aliveCount (modifySlot killSlot (sf pid) j) + 1 := by
          rw [aliveCount_append]
          rfl
        have h3 := aliveCount_kill (sf pid) j hj ha
        omega
    · obtain ⟨p2, hid2, hrep2, hmapeq⟩ :=
        ow_table_relocate tbl pt sf I pid j hj ha t hw (by omega) (by omega)
      rw [hmapeq] at heq
      by_cases hsz : 3 + t.size ≤ PAGE_DATA_SIZE
      case neg =>
        rw [insert_table_fail tbl pt sf I t (by omega)] at heq
        simp [Except.map] at heq
      case pos =>
        obtain ⟨pidI, offI, ptI, hins, I2, hAT2, huntouch, hbranch, hrepNew⟩ :=
          insert_table_spec tbl pt sf I t hw hsz
        rw [hins] at heq
        simp only [Except.map] at heq
        simp only [Except.ok.injEq, Prod.mk.injEq] at heq
        obtain ⟨hres, hpt2⟩ := heq
        subst hpt2
        have hplI : pt.page_count - 1 < pt.pages.length := by omega
        have Rl := I.rep (pt.page_count - 1) hplI
        have hgetD : pt.pages.getD (pt.page_count - 1) (Page.new 0) =
            pt.pages.get ⟨pt.page_count - 1, hplI⟩ := by
          rw [List.getD_eq_getElem pt.pages (Page.new 0) hplI]
          rfl
        by_cases hcf : Page.can_fit_tuple
            (pt.pages.getD (pt.page_count - 1) (Page.new 0)) t = true
        · rw [if_pos hcf] at hbranch
          obtain ⟨hpidI, hoffI, hpcI⟩ := hbranch
          subst hpidI
          have harith : 3 + t.size ≤
              PAGE_DATA_SIZE - sumSizes (sf (pt.page_count - 1)) := by
            have hc2 := hcf
            rw [hgetD] at hc2
            simp only [Page.can_fit_tuple, Page.free_space, Rl.fse,
              decide_eq_true_eq] at hc2
            exact hc2
          have hpidne : pid ≠ pt.page_count - 1 := by
            intro hh
            rw [hh] at hfitB
            exact hfitB harith
          have hOW : owSlots sf (pt.page_count - 1) pid j t =
              updF (updF sf pid (fun l => modifySlot killSlot l j))
                (pt.page_count - 1) (fun l => l ++ [⟨true, t, []⟩]) := by
            simp only [owSlots]
            rw [hgd, if_neg hfit, if_neg hfitB, if_pos harith]
          have hp2lt : p2.id < ptI.pages.length := by
            rw [hid2]
            have := I2.count
            omega
          have hsave2 : ptI.save_page p2 =
              ⟨ptI.pages.set pid p2, ptI.page_count⟩ := by
            rw [save_page_set ptI p2 hp2lt I2.count, hid2]
          have hrep2' : Represents tbl p2
              ((fun l => modifySlot killSlot l j)
                ((updF sf (pt.page_count - 1)
                  (fun l => l ++ [⟨true, t, []⟩])) pid)) := by
            have hupd : (updF sf (pt.page_count - 1)
                (fun l => l ++ [⟨true, t, []⟩])) pid = sf pid := by
              simp [updF, hpidne]
            rw [hupd]
            exact hrep2
          have hT2 := tinv_set tbl ptI
            (updF sf (pt.page_count - 1) (fun l => l ++ [⟨true, t, []⟩])) I2
            pid p2 (fun l => modifySlot killSlot l j)
            (by have := I2.count; omega) hid2 hrep2'
          have hpc2 : (ptI.save_page p2).page_count = pt.page_count := by
            rw [hsave2]
            exact hpcI
          have hcomm : updF (updF sf pid (fun l => modifySlot killSlot l j))
              (pt.page_count - 1) (fun l => l ++ [⟨true, t, []⟩]) =
              updF (updF sf (pt.page_count - 1)
                (fun l => l ++ [⟨true, t, []⟩])) pid
                (fun l => modifySlot killSlot l j) :=
            (updF_comm sf (pt.page_count - 1) pid _ _ (Ne.symm hpidne)).symm
          constructor
          · rw [hOW, hcomm, hsave2]
            exact hT2
          · rw [hOW, hpc2]
            have hA1 := aliveTotal_updF
              (updF sf pid (fun l => modifySlot killSlot l j))
              (pt.page_count - 1) (fun l => l ++ [⟨true, t, []⟩])
              pt.page_count (by omega)
            simp only [] at hA1
            have hupdlast : (updF sf pid (fun l => modifySlot killSlot l j))
                (pt.page_count - 1) = sf (pt.page_count - 1) := by
              simp [updF, Ne.symm hpidne]
            rw [hupdlast] at hA1
            have hsnoc : aliveCount (sf (pt.page_count - 1) ++ [⟨true, t, []⟩]) =
                aliveCount (sf (pt.page_count - 1)) + 1 := by
              rw [aliveCount_append]
              rfl
            have hA2 := aliveTotal_updF sf pid
              (fun l => modifySlot killSlot l j) pt.page_count hpidlt
            simp only [] at hA2
            have hkill := aliveCount_kill (sf pid) j hj ha
            omega
        · rw [if_neg hcf] at hbranch
          obtain ⟨hpidI, hoffI, hpcI⟩ := hbranch
          subst hpidI
          have harith : PAGE_DATA_SIZE - sumSizes (sf (pt.page_count - 1)) <
              3 + t.size := by
            have hc2 := hcf
            rw [hgetD] at hc2
            simp only [Page.can_fit_tuple, Page.free_space, Rl.fse,
              decide_eq_true_eq] at hc2
            omega
          have hpidne : pid ≠ pt.page_count := by omega
          have hOW : owSlots sf (pt.page_count - 1) pid j t =
              updF (updF sf pid (fun l => modifySlot killSlot l j))
                (pt.page_count) (fun l => l ++ [⟨true, t, []⟩]) := by
            simp only [owSlots]
            rw [hgd, if_neg hfit, if_neg hfitB, if_neg (by omega),
              show pt.page_count - 1 + 1 = pt.page_count by omega]
          have hp2lt : p2.id < ptI.pages.length := by
            rw [hid2]
            have := I2.count
            omega
          have hsave2 : ptI.save_page p2 =
              ⟨ptI.pages.set pid p2, ptI.page_count⟩ := by
            rw [save_page_set ptI p2 hp2lt I2.count, hid2]
          have hrep2' : Represents tbl p2
              ((fun l => modifySlot killSlot l j)
                ((updF sf (pt.page_count)
                  (fun l => l ++ [⟨true, t, []⟩])) pid)) := by
            have hupd : (updF sf (pt.page_count)
                (fun l => l ++ [⟨true, t, []⟩])) pid = sf pid := by
              simp [updF, hpidne]
            rw [hupd]
            exact hrep2
          have hT2 := tinv_set tbl ptI
            (updF sf (pt.page_count) (fun l => l ++ [⟨true, t, []⟩])) I2
            pid p2 (fun l => modifySlot killSlot l j)
            (by have := I2.count; omega) hid2 hrep2'
          have hpc2 : (ptI.save_page p2).page_count = pt.page_count + 1 := by
            rw [hsave2]
            exact hpcI
          have hcomm : updF (updF sf pid (fun l => modifySlot killSlot l j))
              (pt.page_count) (fun l => l ++ [⟨true, t, []⟩]) =
              updF (updF sf (pt.page_count)
                (fun l => l ++ [⟨true, t, []⟩])) pid
                (fun l => modifySlot killSlot l j) :=
            (updF_comm sf (pt.page_count) pid _ _ (Ne.symm hpidne)).symm
          constructor
          · rw [hOW, hcomm, hsave2]
            exact hT2
          · rw [hOW, hpc2, aliveTotal_succ]
            have hterm : (updF (updF sf pid (fun l => modifySlot killSlot l j))
                (pt.page_count) (fun l => l ++ [⟨true, t, []⟩]))
                pt.page_count = [] ++ [⟨true, t, []⟩] := by
              simp [updF, Ne.symm hpidne, I.rest pt.page_count (by omega)]
            have hcongr : aliveTotal
                (updF (updF sf pid (fun l => modifySlot killSlot l j))
                  (pt.page_count) (fun l => l ++ [⟨true, t, []⟩]))
                pt.page_count =
                aliveTotal (updF sf pid (fun l => modifySlot killSlot l j))
                  pt.page_count :=
              aliveTotal_congr _ _ _ (fun i hi => by
                simp [updF, show ¬ (i = pt.page_count) by omega])
            have hA2 := aliveTotal_updF sf pid
              (fun l => modifySlot killSlot l j) pt.page_count hpidlt
            simp only [] at hA2
            have hkill := aliveCount_kill (sf pid) j hj ha
            have hone : aliveCount ([] ++ [⟨true, t, []⟩]) = 1 := rfl
            rw [hterm, hcongr, hone]
            omega

theorem treach_inv (tbl : Table) (pt : PageTable) (sf : Nat → List Slot)
    (i d : Nat) (h : TReach tbl pt sf i d) :
    TInv tbl pt sf ∧ aliveTotal sf pt.page_count + d = i := by
  induction h with
  | init =>
    refine ⟨⟨rfl, by simp, ?_, ?_, ?_⟩, ?_⟩
    · intro i h
      simp only [List.length_singleton] at h
      have h0 : i = 0 := by omega
      subst h0
      rfl
    · intro i h
      simp only [List.length_singleton] at h
      have h0 : i = 0 := by omega
      subst h0
      exact represents_new tbl 0
    · intro i h
      rfl
    · rfl
  | ins hTR hw hins ih =>
    rename_i pt sf i d t pid off pt2
    obtain ⟨I, hcount⟩ := ih
    by_cases hsz : 3 + t.size ≤ PAGE_DATA_SIZE
    · obtain ⟨pid2, off2, pt3, heq, I2, hAT, h4, h5, h6⟩ :=
        insert_table_spec tbl pt sf I t hw hsz
      rw [heq] at hins
      simp only [Except.ok.injEq, Prod.mk.injEq] at hins
      obtain ⟨⟨hp, ho⟩, hpt⟩ := hins
      subst hp
      subst hpt
      exact ⟨I2, by omega⟩
    · rw [insert_table_fail tbl pt sf I t (by omega)] at hins
      simp at hins
  | del hTR hj ha hdel ih =>
    rename_i pt sf i d pid j pt2
    obtain ⟨I, hcount⟩ := ih
    obtain ⟨pt3, heq, I2, hpc, hAT⟩ := delete_table_spec tbl pt sf I pid j hj ha
    rw [heq] at hdel
    simp only [Except.ok.injEq] at hdel
    subst hdel
    exact ⟨I2, by omega⟩
  | ow hTR hj ha hw how ih =>
    rename_i pt sf i d pid j t res pt2
    obtain ⟨I, hcount⟩ := ih
    obtain ⟨I2, hAT⟩ :=
      overwrite_table_spec tbl pt sf I pid j hj ha t hw res pt2 how
    exact ⟨I2, by omega⟩

/-- C2: along any history of successful insert, delete and overwrite
operations on a page table (starting from PageTable::init, deletes and
overwrites targeting alive slots as the executor's completed-scan protocol
guarantees), the full scan succeeds and yields exactly `inserts − deletes`
tuples; in particular every successful overwrite — in-place, same-page
relocation, or cross-page relocation — leaves the alive-tuple count
unchanged. -/
theorem c2_alive_count (tbl : Table) (pt : PageTable) (sf : Nat → List Slot)
    (ins del : Nat) (h : TReach tbl pt sf ins del) :
    ∃ L : List (Nat × Nat × Tuple),
      tableScan tbl pt = some (L.map Except.ok) ∧ L.length + del = ins := by
  obtain ⟨I, hcount⟩ := treach_inv tbl pt sf ins del h
  have hscan := tableScanFrom_spec tbl pt sf I.count I.rep pt.page_count 0
    (by omega)
  refine ⟨(List.range pt.page_count).flatMap
    (fun i => (alivePairs 0 (sf i)).map (fun q => (i, q.1, q.2))), ?_, ?_⟩
  · unfold tableScan
    rw [hscan, Nat.sub_zero, ← List.range_eq_range']
    simp only [List.map_flatMap, List.map_map]
    rfl
  · rw [List.length_flatMap]
    simp only [Function.comp_def, List.length_map, alivePairs_length]
    exact hcount

/-- Witness for C2: init, two inserts, one delete and one in-place
overwrite; the scan yields exactly one tuple and 1 + 1 = 2. -/
theorem c2_alive_count_witness :
    ∃ L : List (Nat × Nat × Tuple),
      tableScan tbl1 wt4 = some (L.map Except.ok) ∧ L.length + 1 = 2 := by
  have t0 : TReach tbl1 wt0 (fun _ => []) 0 0 := TReach.init
  have t1 : TReach tbl1 wt1 wsf1 1 0 :=
    @TReach.ins tbl1 wt0 (fun _ => []) 0 0 tupT 0 0 wt1 t0 (by decide) rfl
  have t2 : TReach tbl1 wt2 wsf2 2 0 :=
    @TReach.ins tbl1 wt1 wsf1 1 0 tupF 0 4 wt2 t1 (by decide) rfl
  have t3 : TReach tbl1 wt3 wsf3 2 1 :=
    @TReach.del tbl1 wt2 wsf2 2 0 0 0 wt3 t2 (by decide) rfl rfl
  have t4 : TReach tbl1 wt4 wsf4 2 1 :=
    @TReach.ow tbl1 wt3 wsf3 2 1 0 1 tupT (0, 4) wt4 t3 (by decide) rfl
      (by decide) rfl
  exact c2_alive_count tbl1 wt4 wsf4 2 1 t4


/-- C5: PageTable::overwrite_tuple follows the three-branch protocol on a
reachable table and an alive slot: (a) when the new tuple fits the slot's
recorded capacity it is overwritten in place, the page saved and the
unchanged (page_id, slot_offset) returned; (b) otherwise the original slot
is tombstoned and, when the same page can still fit the tuple, it is
inserted there (at the page's free_space_end) and the new offset returned;
(c) otherwise the result is that of recursing into insert_tuple on the
table, with the tombstoned page additionally saved. -/
theorem c5_overwrite_protocol (tbl : Table) (pt : PageTable)
    (sf : Nat → List Slot) (I : TInv tbl pt sf) (pid j : Nat)
    (hj : j < (sf pid).length) (ha : ((sf pid).get ⟨j, hj⟩).alive = true)
    (t : Tuple) (hw : wfT tbl t = true) :
    (t.size ≤ slotLen ((sf pid).get ⟨j, hj⟩) →
      ∃ p1, Represents tbl p1
          (modifySlot (fun s0 => overwriteSlot s0 t) (sf pid) j) ∧
        PageTable.overwrite_tuple tbl pt pid (offsetOf (sf pid) j) t =
          .ok ((pid, offsetOf (sf pid) j), pt.save_page p1)) ∧
    (slotLen ((sf pid).get ⟨j, hj⟩) < t.size →
      3 + t.size ≤ PAGE_DATA_SIZE - sumSizes (sf pid) →
      ∃ p3, Represents tbl p3
          (modifySlot killSlot (sf pid) j ++ [⟨true, t, []⟩]) ∧
        PageTable.overwrite_tuple tbl pt pid (offsetOf (sf pid) j) t =
          .ok ((pid, sumSizes (sf pid)), pt.save_page p3)) ∧
    (slotLen ((sf pid).get ⟨j, hj⟩) < t.size →
      PAGE_DATA_SIZE - sumSizes (sf pid) < 3 + t.size →
      ∃ p2, Represents tbl p2 (modifySlot killSlot (sf pid) j) ∧
        PageTable.overwrite_tuple tbl pt pid (offsetOf (sf pid) j) t =
          (PageTable.insert_tuple tbl pt t).map
            (fun r => (r.1, PageTable.save_page r.2 p2))) := by
  refine ⟨?_, ?_, ?_⟩
  · intro hfit
    obtain ⟨p1, _, hrep, heval⟩ :=
      ow_table_inplace tbl pt sf I pid j hj ha t hw hfit
    exact ⟨p1, hrep, heval⟩
  · intro hgt hfit2
    obtain ⟨p3, _, hrep, heval⟩ :=
      ow_table_samepage tbl pt sf I pid j hj ha t hw hgt hfit2
    exact ⟨p3, hrep, heval⟩
  · intro hgt hnofit
    obtain ⟨p2, _, hrep, heval⟩ :=
      ow_table_relocate tbl pt sf I pid j hj ha t hw hgt hnofit
    exact ⟨p2, hrep, heval⟩

/-- Witness for C5, exercising the same-page relocation branch: a page of
tblS holding one alive 5-byte-capacity slot ("a"), overwritten with the
6-byte "ab"; the slot at offset 0 is tombstoned and the tuple reinserted
at offset 8. -/
theorem c5_overwrite_protocol_witness :
    ∃ p3, Represents tblS p3
        (modifySlot killSlot [⟨true, sA, []⟩] 0 ++ [⟨true, sAB, []⟩]) ∧
      PageTable.overwrite_tuple tblS ⟨[wpS1], 1⟩ 0 0 sAB =
        .ok ((0, 8), PageTable.save_page ⟨[wpS1], 1⟩ p3) := by
  have hP : PReach tblS wpS1 [⟨true, sA, []⟩] :=
    PReach.ins (PReach.new 0) (by decide) rfl
  have I : TInv tblS ⟨[wpS1], 1⟩
      (fun k => if k = 0 then [⟨true, sA, []⟩] else []) :=
    tinv_single tblS wpS1 [⟨true, sA, []⟩] rfl (preach_represents tblS hP)
  have h := c5_overwrite_protocol tblS ⟨[wpS1], 1⟩ _ I 0 0 (by decide) rfl sAB
    (by decide)
  obtain ⟨p3, hrep, heval⟩ := h.2.1 (by decide) (by decide)
  exact ⟨p3, hrep, heval⟩

/-- C6: PageTable::insert_tuple works on the last page only — pages other
than the last are never modified — and when the last page cannot fit the
tuple it inserts into a fresh empty page with id = page_count: the returned
page id is the old page_count, the offset is 0, the saved file's page_count
is the old value plus one, and the new page holds exactly the inserted
row. -/
theorem c6_insert_last_page (tbl : Table) (pt : PageTable)
    (sf : Nat → List Slot) (I : TInv tbl pt sf) (t : Tuple)
    (hw : wfT tbl t = true) (hsz : 3 + t.size ≤ PAGE_DATA_SIZE) :
    ∃ pid off pt2,
      PageTable.insert_tuple tbl pt t = .ok ((pid, off), pt2) ∧
      (∀ i, i + 1 < pt.page_count → pt2.pages[i]? = pt.pages[i]?) ∧
      (Page.can_fit_tuple (pt.pages.getD (pt.page_count - 1) (Page.new 0)) t =
          false →
        pid = pt.page_count ∧ off = 0 ∧ pt2.page_count = pt.page_count + 1 ∧
        ∃ p, pt2.pages[pid]? = some p ∧ Represents tbl p [⟨true, t, []⟩]) := by
  obtain ⟨pid, off, pt2, heq, I2, hAT, huntouch, hbranch, hrep⟩ :=
    insert_table_spec tbl pt sf I t hw hsz
  refine ⟨pid, off, pt2, heq, huntouch, ?_⟩
  intro hcf
  rw [if_neg (by rw [hcf]; simp)] at hbranch
  obtain ⟨h1, h2, h3⟩ := hbranch
  obtain ⟨p, hp, hrepp⟩ := hrep
  refine ⟨h1, h2, h3, p, hp, ?_⟩
  have hempty : sf pid = [] := by
    rw [h1]
    exact I.rest pt.page_count (by have := I.count; omega)
  rw [hempty] at hrepp
  simpa using hrepp

/-- Witness for C6 at the freshly initialized single-page file: the insert
of (true) succeeds. -/
theorem c6_insert_last_page_witness :
    ∃ pid off pt2,
      PageTable.insert_tuple tbl1 wt0 tupT = .ok ((pid, off), pt2) := by
  have I : TInv tbl1 wt0 (fun k => if k = 0 then [] else []) :=
    tinv_single tbl1 (Page.new 0) [] rfl (represents_new tbl1 0)
  obtain ⟨pid, off, pt2, heq, h4, h5⟩ :=
    c6_insert_last_page tbl1 wt0 _ I tupT (by decide) (by decide)
  exact ⟨pid, off, pt2, heq⟩

theorem tableIterLoop_error_flag (tbl : Table) (pt : PageTable) :
    ∀ fuel pid cur e s2,
      tableIterLoop tbl pt fuel pid cur =
        some (some (.error e), s2) → s2.errored = true := by
  intro fuel
  induction fuel with
  | zero =>
    intro pid cur e s2 h
    exact absurd h (by simp [tableIterLoop])
  | succ fuel ih =>
    intro pid cur e s2 h
    match cur with
    | some (p, off) =>
      simp only [tableIterLoop] at h
      cases hpi : pageIterNext tbl p off with
      | none =>
        rw [hpi] at h
        simp at h
      | some pr =>
        obtain ⟨o, off2⟩ := pr
        cases o with
        | none =>
          rw [hpi] at h
          simp only [] at h
          by_cases hlt : pid + 1 < pt.page_count
          · rw [if_pos hlt] at h
            cases hg : pt.get_page (pid + 1) with
            | ok p2 =>
              rw [hg] at h
              exact ih (pid + 1) (some (p2, 0)) e s2 h
            | error e2 =>
              rw [hg] at h
              simp only [Option.some.injEq, Prod.mk.injEq] at h
              rw [← h.2]
          · rw [if_neg hlt] at h
            simp at h
        | some item =>
          obtain ⟨oo, r⟩ := item
          cases r with
          | ok tt =>
            rw [hpi] at h
            simp at h
          | error e2 =>
            rw [hpi] at h
            simp only [Option.some.injEq, Prod.mk.injEq] at h
            rw [← h.2]
    | none =>
      simp only [tableIterLoop] at h
      by_cases hlt : pid < pt.page_count
      · rw [if_pos hlt] at h
        cases hg : pt.get_page pid with
        | ok p2 =>
          rw [hg] at h
          exact ih pid (some (p2, 0)) e s2 h
        | error e2 =>
          rw [hg] at h
          simp only [Option.some.injEq, Prod.mk.injEq] at h
          rw [← h.2]
      · rw [if_neg hlt] at h
        simp at h

theorem tableIterNext_error_flag (tbl : Table) (pt : PageTable)
    (s : TIterState) (e : DBError) (s2 : TIterState)
    (h : tableIterNext tbl pt s = some (some (.error e), s2)) :
    s2.errored = true := by
  unfold tableIterNext at h
  by_cases hs : s.errored = true
  · rw [if_pos hs] at h
    simp at h
  · rw [if_neg hs] at h
    exact tableIterLoop_error_flag tbl pt (pt.page_count + 2) s.page_id s.cur
      e s2 h

theorem errored_absorbing (tbl : Table) (pt : PageTable) (s : TIterState)
    (h : s.errored = true) : tableIterNext tbl pt s = some (none, s) := by
  unfold tableIterNext
  rw [if_pos h]

/-- C9: the table iterator is fail-fast: every error-yielding call of
TableIterator::next sets the sticky errored flag, and from the resulting
state every subsequent next() call — however many steps later — yields
nothing (and leaves the state unchanged). -/
theorem c9_fail_fast (tbl : Table) (pt : PageTable) (s : TIterState)
    (e : DBError) (s2 : TIterState)
    (h : tableIterNext tbl pt s = some (some (.error e), s2)) :
    ∀ k, tableIterNext tbl pt ((tiStep tbl pt)^[k] s2) =
      some (none, (tiStep tbl pt)^[k] s2) := by
  have hflag : s2.errored = true := tableIterNext_error_flag tbl pt s e s2 h
  have hfix : ∀ k, (tiStep tbl pt)^[k] s2 = s2 := by
    intro k
    induction k with
    | zero => rfl
    | succ k ih =>
      rw [Function.iterate_succ_apply', ih]
      unfold tiStep
      rw [errored_absorbing tbl pt s2 hflag]
  intro k
  rw [hfix k]
  exact errored_absorbing tbl pt s2 hflag

/-- Witness for C9: on a corrupt table file whose stored page count is 1
but whose file is empty, the first next() yields the I/O error; the calls
two steps later yield nothing. -/
theorem c9_fail_fast_witness :
    tableIterNext tbl1 wpt9 ⟨0, none, false⟩ =
        some (some (.error .io), ⟨0, none, true⟩) ∧
      tableIterNext tbl1 wpt9 ((tiStep tbl1 wpt9)^[2] ⟨0, none, true⟩) =
        some (none, (tiStep tbl1 wpt9)^[2] ⟨0, none, true⟩) :=
  ⟨rfl, c9_fail_fast tbl1 wpt9 ⟨0, none, false⟩ .io ⟨0, none, true⟩ rfl 2⟩
